import Mathlib

/-!
Verification of the `simulations` crate's core: the `Grid` storage interface,
its bit-packed `BitGrid` backend, and the `BitFlipper` traversal engine.

Machine integers (`Index = i32`, `usize`) are modelled as `Int`/`Nat`; Rust's
truncating division/remainder on `i32` are `Int.tdiv`/`Int.tmod`.  Byte buffers
(`Vec<u8>`) are `List Nat`.  Indexing a buffer out of range panics in Rust; the
model reads with default `0` and writes with `List.set` (a no-op out of range),
and every theorem that depends on a buffer access carries hypotheses putting the
access in range, so the model and the code agree on the whole domain a theorem
speaks about.
-/

set_option maxHeartbeats 2000000

/-- Model of `ultraviolet::IVec3`, the coordinate/direction vector type. -/
structure IVec3 where
  x : Int
  y : Int
  z : Int
deriving DecidableEq, Repr

/-- `IVec3::zero()`. -/
def IVec3.zero : IVec3 := ⟨0, 0, 0⟩

/-- `IVec3::one()`. -/
def IVec3.one : IVec3 := ⟨1, 1, 1⟩

/-- Model of `BitGrid` (src/bitgrid.rs): a byte-packed boolean grid.
`buf` is the `Vec<u8>` byte buffer, each `Nat` entry standing for one byte. -/
structure BitGrid where
  buf : List Nat
  width : Int
  height : Int
  depth : Int
deriving DecidableEq, Repr

namespace BitGrid

/-- `BitGrid::new`: a zeroed buffer of `(w*h*d).div_ceil(8)` bytes
(src/bitgrid.rs lines 25-34).  The `usize` cast of the cell count is `Int.toNat`. -/
def new (width height depth : Int) : BitGrid :=
  { buf := List.replicate (((width * height * depth).toNat + 7) / 8) 0
    width := width, height := height, depth := depth }

/-- `BitGrid::dims`. -/
def dims (g : BitGrid) : IVec3 := ⟨g.width, g.height, g.depth⟩

/-- `BitGrid::idx` (src/bitgrid.rs lines 152-167): wrap each coordinate by
`(c + extent) % extent` (Rust `%` on `i32` is `Int.tmod`), cast to `usize`
(`Int.toNat`; faithful whenever the wrapped value is nonnegative, which every
theorem below guarantees through its hypotheses), linearize, and split the
linear index into byte and bit. -/
def idx (g : BitGrid) (x y z : Int) : Nat × Nat :=
  let x := (x + g.width).tmod g.width
  let y := (y + g.height).tmod g.height
  let z := (z + g.depth).tmod g.depth
  let i := x.toNat + y.toNat * g.width.toNat + z.toNat * (g.width * g.height).toNat
  (i / 8, i % 8)

/-- `BitGrid::get` (src/bitgrid.rs lines 111-117): `(buf[idx] & mask) != 0`.
`ib` is the `(idx, bit)` pair returned by `idx`. -/
def get (g : BitGrid) (x y z : Int) : Bool :=
  let ib := g.idx x y z
  let mask := 1 <<< ib.2
  (g.buf.getD ib.1 0 &&& mask) != 0

/-- `BitGrid::set` (src/bitgrid.rs lines 119-130): returns the prior value and
the updated grid.  `buf[idx] &= !mask` on `u8` is masking with the 8-bit
complement `255 ^^^ mask`. -/
def set (g : BitGrid) (x y z : Int) (elem : Bool) : Bool × BitGrid :=
  let ib := g.idx x y z
  let mask := 1 <<< ib.2
  let old := (g.buf.getD ib.1 0 &&& mask) != 0
  let b := (g.buf.getD ib.1 0 &&& (255 ^^^ mask)) ||| (elem.toNat <<< ib.2)
  (old, { g with buf := g.buf.set ib.1 b })

/-- `BitGrid::flip` (src/bitgrid.rs lines 132-142): xor the addressed bit,
returning the prior value and the updated grid. -/
def flip (g : BitGrid) (x y z : Int) : Bool × BitGrid :=
  let ib := g.idx x y z
  let mask := 1 <<< ib.2
  let old := (g.buf.getD ib.1 0 &&& mask) != 0
  (old, { g with buf := g.buf.set ib.1 (g.buf.getD ib.1 0 ^^^ (1 <<< ib.2)) })

/-- `<BitGrid as Grid>::fill` (src/bitgrid.rs lines 210-216), verbatim: the
override writes `0b0000_0000` bytes when `set` is true and `0b1111_1111` bytes
when `set` is false. -/
def fill (g : BitGrid) (set : Bool) : BitGrid :=
  if set then { g with buf := List.replicate g.buf.length 0 }
  else { g with buf := List.replicate g.buf.length 255 }

/-- `BitGrid::diff_with` (src/bitgrid.rs lines 169-181).  The two
`assert_eq!` calls on width and height are modelled as the `if`: a failed
assertion aborts, i.e. `none`.  On success the bytes of a fresh grid with
`self`'s dimensions are overwritten, index by index, with the xor of the two
buffers over their zipped (shorter) length; bytes past that length keep the
fresh grid's `0`. -/
def diff_with (g other : BitGrid) : Option BitGrid :=
  if g.width = other.width ∧ g.height = other.height then
    let d := new g.width g.height g.depth
    some { d with
           buf := (List.zipWith (fun a b => a ^^^ b) g.buf other.buf) ++
             List.replicate (d.buf.length - min g.buf.length other.buf.length) 0 }
  else none

/-- Buffer wellformedness: the byte buffer has exactly the length
`BitGrid::new` allocates for the grid's dimensions. -/
def Wf (g : BitGrid) : Prop :=
  g.buf.length = ((g.width * g.height * g.depth).toNat + 7) / 8

instance (g : BitGrid) : Decidable g.Wf := by unfold Wf; infer_instance

end BitGrid

/-- The `Grid` trait's default `fill` (src/grid.rs lines 45-53): a triple loop
over all axes calling `set`, here instantiated at `BitGrid`. -/
def defaultFill (g : BitGrid) (v : Bool) : BitGrid :=
  (List.range g.depth.toNat).foldl (fun gz z =>
    (List.range g.height.toNat).foldl (fun gy y =>
      (List.range g.width.toNat).foldl (fun gx x =>
        (gx.set (x : Int) (y : Int) (z : Int) v).2) gy) gz) g

/-- Model of the `Grid` trait (src/grid.rs) as a record of operations over a
storage state `γ`.  `get`/`set`/`flip` are state-passing so that an
instrumenting backend (like the crate's `TestGridWithMut` test grid) can record
calls; a plain backend returns its state unchanged from `get`. -/
structure GridOps (γ : Type) where
  width : γ → Int
  height : γ → Int
  depth : γ → Int
  get : γ → Int → Int → Int → Bool × γ
  set : γ → Int → Int → Int → Bool → Bool × γ
  flip : γ → Int → Int → Int → Bool × γ

/-- The `Grid` implementation for `BitGrid` (src/bitgrid.rs lines 190-217),
except `fill`, which is modelled separately as `BitGrid.fill`. -/
def bitGridOps : GridOps BitGrid :=
  { width := BitGrid.width, height := BitGrid.height, depth := BitGrid.depth
    get := fun g x y z => (g.get x y z, g)
    set := fun g x y z v => g.set x y z v
    flip := fun g x y z => g.flip x y z }

/-- Model of `BitFlipper` (src/bitflipper.rs lines 3-8), generic over the
grid storage `γ` like the Rust struct is generic over `G: Grid`. -/
structure BitFlipper (γ : Type) where
  pos : IVec3
  dir : IVec3
  dir_sign : IVec3
  grid : γ
deriving DecidableEq, Repr

/-- `BitFlipper::new_with_grid` (src/bitflipper.rs lines 19-26). -/
def BitFlipper.new_with_grid (grid : γ) (dir : IVec3) : BitFlipper γ :=
  { pos := IVec3.zero, dir := dir, dir_sign := IVec3.one, grid := grid }

/-- `a.abs().max(1)`, the clamp applied to direction components throughout
`BitFlipper` (src/bitflipper.rs). -/
def clamp1 (a : Int) : Int := max |a| 1

/-- `BitFlipper::positive_modulo` (src/bitflipper.rs lines 157-159):
`(n.abs() + (i % n.abs())) % n.abs()` with Rust's truncating `%`. -/
def positive_modulo (i n : Int) : Int := (|n| + i.tmod |n|).tmod |n|

/-- The `dir >= 0` arm of `BitFlipper::next_multiple_of_n_in_direction`
(src/bitflipper.rs line 154): `i + n.abs() - positive_modulo(i, n)`. -/
def next_multiple_core (i n : Int) : Int := i + |n| - positive_modulo i n

/-- `BitFlipper::next_multiple_of_n_in_direction` (src/bitflipper.rs lines
149-155).  The source recurses as `-next_multiple_of_n_in_direction(-i, -n,
-dir)` when `dir < 0`; since `-dir ≥ 0` that call always takes the
non-recursive arm, which is `next_multiple_core`, so the one-level recursion is
inlined here. -/
def next_multiple_of_n_in_direction (i n dir : Int) : Int :=
  if dir < 0 then -next_multiple_core (-i) (-n) else next_multiple_core i n

/-- One axis of the boundary-reflection block at the top of
`BitFlipper::flip_and_advance_once` (src/bitflipper.rs lines 86-108): the two
sequential `if`s updating `dir_sign` for an axis with position `p`, scaled
bound `bound`, direction component `dcomp` and current sign `s`, stepping in
direction `d`. -/
def reflect_sign (p bound dcomp s d : Int) : Int :=
  let s1 := if p ≤ 0 then dcomp.sign * d.sign else s
  if p ≥ bound then -dcomp.sign * d.sign else s1

/-- The `move_amount` computation of `BitFlipper::flip_and_advance_once`
(src/bitflipper.rs lines 132-142): starting from `i32::MAX`, keep each
strictly positive distance that is smaller than the current amount. -/
def move_amount (dx dy dz : Int) : Int :=
  let m0 : Int := 2147483647
  let m1 := if dx > 0 ∧ dx < m0 then dx else m0
  let m2 := if dy > 0 ∧ dy < m1 then dy else m1
  if dz > 0 ∧ dz < m2 then dz else m2

/-- `BitFlipper::flip_bit` (src/bitflipper.rs lines 162-192): when moving in
the negative direction along an axis, step one unit inside the departed cell;
then divide down by the other axes' clamped direction magnitudes
(`dir.abs().max_by_component(one)`) and flip that cell through the grid
interface. -/
def flip_bit (ops : GridOps γ) (st : BitFlipper γ) (d : Int) : Bool × γ :=
  let px := if d * st.dir.x * st.dir_sign.x < 0 then st.pos.x - 1 else st.pos.x
  let py := if d * st.dir.y * st.dir_sign.y < 0 then st.pos.y - 1 else st.pos.y
  let pz := if d * st.dir.z * st.dir_sign.z < 0 then st.pos.z - 1 else st.pos.z
  let dx := clamp1 st.dir.x
  let dy := clamp1 st.dir.y
  let dz := clamp1 st.dir.z
  ops.flip st.grid ((px.tdiv dy).tdiv dz) ((py.tdiv dx).tdiv dz) ((pz.tdiv dx).tdiv dy)

/-- `BitFlipper::flip_and_advance_once` (src/bitflipper.rs lines 83-147):
reflect the per-axis signs at the boundaries, flip the current cell, compute
the next grid-line crossing per axis, take the smallest strictly positive
distance, and advance every axis by it (scaled by each axis's own sign). -/
def flip_and_advance_once (ops : GridOps γ) (st : BitFlipper γ) (d : Int) :
    BitFlipper γ :=
  let sx := reflect_sign st.pos.x
    (ops.width st.grid * clamp1 st.dir.y * clamp1 st.dir.z) st.dir.x st.dir_sign.x d
  let sy := reflect_sign st.pos.y
    (ops.height st.grid * clamp1 st.dir.x * clamp1 st.dir.z) st.dir.y st.dir_sign.y d
  let sz := reflect_sign st.pos.z
    (ops.depth st.grid * clamp1 st.dir.x * clamp1 st.dir.y) st.dir.z st.dir_sign.z d
  let st1 : BitFlipper γ :=
    { pos := st.pos, dir := st.dir, dir_sign := ⟨sx, sy, sz⟩, grid := st.grid }
  let g2 := (flip_bit ops st1 d).2
  let next_x := next_multiple_of_n_in_direction st.pos.x
    (clamp1 st.dir.y * clamp1 st.dir.z) (st.dir.x * sx * d)
  let next_y := next_multiple_of_n_in_direction st.pos.y
    (clamp1 st.dir.x * clamp1 st.dir.z) (st.dir.y * sy * d)
  let next_z := next_multiple_of_n_in_direction st.pos.z
    (clamp1 st.dir.x * clamp1 st.dir.y) (st.dir.z * sz * d)
  let m := move_amount |next_x - st.pos.x| |next_y - st.pos.y| |next_z - st.pos.z|
  { pos := ⟨st.pos.x + m * d * st.dir.x.sign * sx,
            st.pos.y + m * d * st.dir.y.sign * sy,
            st.pos.z + m * d * st.dir.z.sign * sz⟩,
    dir := st.dir, dir_sign := ⟨sx, sy, sz⟩, grid := g2 }

/-- The loop body of `BitFlipper::step` iterated a fixed number of times. -/
def stepN (ops : GridOps γ) (d : Int) : Nat → BitFlipper γ → BitFlipper γ
  | 0, st => st
  | k + 1, st => stepN ops d k (flip_and_advance_once ops st d)

/-- `BitFlipper::step` (src/bitflipper.rs lines 74-78): run the elementary
step `n.abs()` times with direction `n.signum()`. -/
def step (ops : GridOps γ) (st : BitFlipper γ) (n : Int) : BitFlipper γ :=
  stepN ops n.sign n.natAbs st

/-- Rust `i32` division, made partial: `a / b` panics when `b == 0`, which the
model renders as `none`. -/
def checkedTdiv (a b : Int) : Option Int := if b = 0 then none else some (a.tdiv b)

/-- Rust `i32` remainder, made partial: `a % b` panics when `b == 0`. -/
def checkedTmod (a b : Int) : Option Int := if b = 0 then none else some (a.tmod b)

/-- `BitFlipper::positive_modulo` with its two `%` operations checked for a
zero divisor, exactly as Rust would fault. -/
def positive_modulo_checked (i n : Int) : Option Int := do
  let r ← checkedTmod i |n|
  checkedTmod (|n| + r) |n|

/-- The `dir >= 0` arm of `next_multiple_of_n_in_direction`, checked. -/
def next_multiple_core_checked (i n : Int) : Option Int := do
  let pm ← positive_modulo_checked i n
  pure (i + |n| - pm)

/-- `BitFlipper::next_multiple_of_n_in_direction`, checked. -/
def next_multiple_of_n_in_direction_checked (i n dir : Int) : Option Int :=
  if dir < 0 then do
    let r ← next_multiple_core_checked (-i) (-n)
    pure (-r)
  else next_multiple_core_checked i n

/-- `BitFlipper::flip_bit` with every division checked for a zero divisor. -/
def flip_bit_checked (ops : GridOps γ) (st : BitFlipper γ) (d : Int) :
    Option (Bool × γ) := do
  let px := if d * st.dir.x * st.dir_sign.x < 0 then st.pos.x - 1 else st.pos.x
  let py := if d * st.dir.y * st.dir_sign.y < 0 then st.pos.y - 1 else st.pos.y
  let pz := if d * st.dir.z * st.dir_sign.z < 0 then st.pos.z - 1 else st.pos.z
  let dx := clamp1 st.dir.x
  let dy := clamp1 st.dir.y
  let dz := clamp1 st.dir.z
  let cx ← checkedTdiv px dy
  let cx ← checkedTdiv cx dz
  let cy ← checkedTdiv py dx
  let cy ← checkedTdiv cy dz
  let cz ← checkedTdiv pz dx
  let cz ← checkedTdiv cz dy
  pure (ops.flip st.grid cx cy cz)

/-- `BitFlipper::flip_and_advance_once` with every division and remainder
checked for a zero divisor (the only failure mode the code can hit): a `none`
result is a Rust division-by-zero fault. -/
def flip_and_advance_once_checked (ops : GridOps γ) (st : BitFlipper γ)
    (d : Int) : Option (BitFlipper γ) := do
  let sx := reflect_sign st.pos.x
    (ops.width st.grid * clamp1 st.dir.y * clamp1 st.dir.z) st.dir.x st.dir_sign.x d
  let sy := reflect_sign st.pos.y
    (ops.height st.grid * clamp1 st.dir.x * clamp1 st.dir.z) st.dir.y st.dir_sign.y d
  let sz := reflect_sign st.pos.z
    (ops.depth st.grid * clamp1 st.dir.x * clamp1 st.dir.y) st.dir.z st.dir_sign.z d
  let st1 : BitFlipper γ :=
    { pos := st.pos, dir := st.dir, dir_sign := ⟨sx, sy, sz⟩, grid := st.grid }
  let fb ← flip_bit_checked ops st1 d
  let g2 := fb.2
  let next_x ← next_multiple_of_n_in_direction_checked st.pos.x
    (clamp1 st.dir.y * clamp1 st.dir.z) (st.dir.x * sx * d)
  let next_y ← next_multiple_of_n_in_direction_checked st.pos.y
    (clamp1 st.dir.x * clamp1 st.dir.z) (st.dir.y * sy * d)
  let next_z ← next_multiple_of_n_in_direction_checked st.pos.z
    (clamp1 st.dir.x * clamp1 st.dir.y) (st.dir.z * sz * d)
  let m := move_amount |next_x - st.pos.x| |next_y - st.pos.y| |next_z - st.pos.z|
  pure { pos := ⟨st.pos.x + m * d * st.dir.x.sign * sx,
                 st.pos.y + m * d * st.dir.y.sign * sy,
                 st.pos.z + m * d * st.dir.z.sign * sz⟩,
         dir := st.dir, dir_sign := ⟨sx, sy, sz⟩, grid := g2 }

/-- One recorded call through the `Grid` interface. -/
inductive GridEvent where
  | get (x y z : Int)
  | set (x y z : Int) (v : Bool)
  | flip (x y z : Int)
deriving DecidableEq, Repr

/-- An instrumenting `Grid` backend in the style of the crate's
`TestGridWithMut` (src/grid.rs lines 62-103): it delegates to a `BitGrid` and
appends an event for every interface call it receives. -/
def loggingOps : GridOps (BitGrid × List GridEvent) :=
  { width := fun s => s.1.width
    height := fun s => s.1.height
    depth := fun s => s.1.depth
    get := fun s x y z => (s.1.get x y z, (s.1, s.2 ++ [GridEvent.get x y z]))
    set := fun s x y z v =>
      ((s.1.set x y z v).1, ((s.1.set x y z v).2, s.2 ++ [GridEvent.set x y z v]))
    flip := fun s x y z =>
      ((s.1.flip x y z).1, ((s.1.flip x y z).2, s.2 ++ [GridEvent.flip x y z])) }

/-- Split a character list at every occurrence of `sep`, keeping empty
pieces (the semantics of splitting a string on a separator). -/
def splitOnChar (sep : Char) : List Char → List (List Char)
  | [] => [[]]
  | c :: cs =>
    if c = sep then [] :: splitOnChar sep cs
    else match splitOnChar sep cs with
      | [] => [[c]]
      | l :: ls => (c :: l) :: ls

/-- One line of Rust's `str::lines`: a trailing `'\r'` is stripped. -/
def stripCRChars (l : List Char) : List Char :=
  if l.getLast? = some '\r' then l.dropLast else l

/-- Rust's `str::lines`: split on `'\n'`, drop the final empty piece produced
by a trailing newline, and strip a trailing `'\r'` from each line. -/
def rustLines (s : String) : List String :=
  let ls := splitOnChar '\n' s.data
  let ls := match ls.getLast? with
    | some [] => ls.dropLast
    | _ => ls
  ls.map (fun l => String.mk (stripCRChars l))

/-- `line.split_once("#").unwrap_or((line, "")).0`: the text before the first
`'#'` (src/bitgrid.rs line 61). -/
def stripComment (line : String) : String :=
  String.mk (line.data.takeWhile (fun c => c ≠ '#'))

/-- The inner loop of `BitGrid::parse` (src/bitgrid.rs lines 66-70): walk the
characters of one (comment-stripped) row, setting every marker cell. -/
def setRow (markers : List Char) (y : Int) : Int → BitGrid → List Char → BitGrid
  | _, g, [] => g
  | x, g, c :: cs =>
    setRow markers y (x + 1)
      (if markers.contains c then (g.set x y 0 true).2 else g) cs

/-- The line loop of `BitGrid::parse` (src/bitgrid.rs lines 60-72): strip the
comment, skip lines that are then empty without advancing `y`, otherwise place
the row and advance `y`. -/
def parseLines (markers : List Char) : Int → BitGrid → List String → BitGrid
  | _, g, [] => g
  | y, g, line :: rest =>
    let stripped := stripComment line
    if stripped = "" then parseLines markers y g rest
    else parseLines markers (y + 1) (setRow markers y 0 g stripped.toList) rest

/-- `BitGrid::parse` (src/bitgrid.rs lines 51-75).  `dim_y` is
`text.lines().count() - 1` and `dim_x` is `first line length - 1`, both in
`usize` (so `Nat` subtraction here; Rust faults on underflow, and the theorem
about `parse` carries hypotheses keeping both counts positive).  String length
is modelled as character count (Rust uses byte length; they agree on ASCII). -/
def BitGrid.parse (text : String) (markers : List Char) : Option BitGrid :=
  let dim_z : Int := 1
  let dim_y : Int := ((rustLines text).length - 1 : Nat)
  let dim_x : Int :=
    match rustLines text with
    | [] => 0
    | l :: _ => (l.length - 1 : Nat)
  let grid := BitGrid.new dim_x dim_y dim_z
  some (parseLines markers 0 grid (rustLines text))

/-- The skip-free reformulation of the parser's row loop: apply a list of
already-stripped, non-empty rows at consecutive `y` indices. -/
def applyRows (markers : List Char) : Int → BitGrid → List String → BitGrid
  | _, g, [] => g
  | y, g, row :: rest =>
    applyRows markers (y + 1) (setRow markers y 0 g row.toList) rest

/-! ### Arithmetic facts about the crate's helper functions -/

lemma tmod_neg_left (a b : Int) : (-a).tmod b = -(a.tmod b) := by
  rw [Int.tmod_def, Int.tmod_def, Int.neg_tdiv]; ring

lemma tmod_gt_neg (a : Int) {b : Int} (hb : 0 < b) : -b < a.tmod b := by
  rcases le_or_lt 0 a with h | h
  · have := Int.tmod_nonneg b h; omega
  · have h1 : (-a).tmod b < b := Int.tmod_lt_of_pos _ hb
    have h2 : (-a).tmod b = -(a.tmod b) := tmod_neg_left a b
    omega

/-- `positive_modulo i n` is the Euclidean remainder of `i` by `|n|`. -/
lemma positive_modulo_eq_emod (i n : Int) (hn : n ≠ 0) :
    positive_modulo i n = i % |n| := by
  have hpos : 0 < |n| := abs_pos.mpr hn
  have h1 : -|n| < i.tmod |n| := tmod_gt_neg i hpos
  have h2 : i.tmod |n| < |n| := Int.tmod_lt_of_pos i hpos
  unfold positive_modulo
  rw [Int.tmod_eq_emod (by omega) hpos.le, add_comm]
  calc (i.tmod |n| + |n|) % |n| = i.tmod |n| % |n| := by
        simpa using Int.add_mul_emod_self_left (i.tmod |n|) |n| 1
    _ = (i.tmod |n| + |n| * i.tdiv |n|) % |n| :=
        (Int.add_mul_emod_self_left (i.tmod |n|) |n| (i.tdiv |n|)).symm
    _ = i % |n| := by rw [Int.tmod_add_tdiv]

/-- The non-negative-direction arm returns the smallest multiple of `|n|`
strictly above `i`. -/
lemma next_multiple_core_spec (i n : Int) (hn : n ≠ 0) :
    |n| ∣ next_multiple_core i n ∧ i < next_multiple_core i n ∧
      next_multiple_core i n ≤ i + |n| := by
  have hpos : 0 < |n| := abs_pos.mpr hn
  have he := positive_modulo_eq_emod i n hn
  have h0 : 0 ≤ i % |n| := Int.emod_nonneg i (by positivity)
  have h1 : i % |n| < |n| := Int.emod_lt_of_pos i hpos
  unfold next_multiple_core
  rw [he]
  refine ⟨?_, by omega, by omega⟩
  have hsplit : i + |n| - i % |n| = |n| * (i / |n|) + |n| := by
    have := Int.ediv_add_emod i |n|; omega
  rw [hsplit]
  exact ⟨i / |n| + 1, by ring⟩

lemma next_multiple_spec_nonneg (i n a : Int) (hn : n ≠ 0) (ha : 0 ≤ a) :
    |n| ∣ next_multiple_of_n_in_direction i n a ∧
      i < next_multiple_of_n_in_direction i n a ∧
      next_multiple_of_n_in_direction i n a ≤ i + |n| := by
  unfold next_multiple_of_n_in_direction
  rw [if_neg (by omega)]
  exact next_multiple_core_spec i n hn

lemma next_multiple_spec_neg (i n a : Int) (hn : n ≠ 0) (ha : a < 0) :
    |n| ∣ next_multiple_of_n_in_direction i n a ∧
      i - |n| ≤ next_multiple_of_n_in_direction i n a ∧
      next_multiple_of_n_in_direction i n a < i := by
  unfold next_multiple_of_n_in_direction
  rw [if_pos ha]
  obtain ⟨hd, hl, hu⟩ := next_multiple_core_spec (-i) (-n) (neg_ne_zero.mpr hn)
  rw [abs_neg] at hd hu
  exact ⟨(dvd_neg).mpr hd, by omega, by omega⟩

/-- There is only one multiple of `n` in a half-open window of width `n`. -/
lemma multiple_in_window_unique {n a b c : Int} (hn : 0 < n) (ha : n ∣ a)
    (hb : n ∣ b) (h1 : c < a) (h2 : a ≤ c + n) (h3 : c < b) (h4 : b ≤ c + n) :
    a = b := by
  have hd : n ∣ a - b := dvd_sub ha hb
  have : a - b = 0 := Int.eq_zero_of_abs_lt_dvd hd (by rw [abs_lt]; constructor <;> omega)
  omega

/-- Truncating division by two positive divisors in sequence is division by
their product (the `pos.x / dir.y / dir.z` chains in `flip_bit`). -/
lemma tdiv_tdiv (a : Int) {b c : Int} (hb : 0 < b) (hc : 0 < c) :
    (a.tdiv b).tdiv c = a.tdiv (b * c) := by
  obtain ⟨p, rfl⟩ : ∃ p : Nat, b = Int.ofNat p := ⟨b.toNat, (Int.toNat_of_nonneg hb.le).symm⟩
  obtain ⟨q, rfl⟩ : ∃ q : Nat, c = Int.ofNat q := ⟨c.toNat, (Int.toNat_of_nonneg hc.le).symm⟩
  have hmul : (Int.ofNat p) * (Int.ofNat q) = Int.ofNat (p * q) := rfl
  rcases a with m | m
  · show (Int.ofNat (m / p)).tdiv (Int.ofNat q) = _
    rw [hmul]
    show Int.ofNat (m / p / q) = Int.ofNat (m / (p * q))
    rw [Nat.div_div_eq_div_mul]
  · show (-Int.ofNat ((m + 1) / p)).tdiv (Int.ofNat q) = _
    rw [hmul, Int.neg_tdiv]
    show -Int.ofNat ((m + 1) / p / q) = _
    rw [Nat.div_div_eq_div_mul]
    rfl

/-- A value lying in the `k`-th window of width `n` has Euclidean quotient `k`. -/
lemma ediv_eq_of_window {n t k : Int} (hn : 0 < n) (h1 : n * k ≤ t)
    (h2 : t < n * (k + 1)) : t / n = k := by
  have hr0 : 0 ≤ t - n * k := by omega
  have hr1 : t - n * k < n := by nlinarith
  have : t = (t - n * k) + n * k := by ring
  rw [this, Int.add_mul_ediv_left _ k hn.ne', Int.ediv_eq_zero_of_lt hr0 hr1]
  ring

lemma clamp1_pos (a : Int) : 0 < clamp1 a := by
  unfold clamp1; positivity

lemma clamp1_of_ne_zero {a : Int} (h : a ≠ 0) : clamp1 a = |a| := by
  unfold clamp1
  have h1 : 1 ≤ |a| := abs_pos.mpr h
  exact max_eq_left h1

lemma clamp1_zero : clamp1 0 = 1 := by decide

lemma sign_sq {a : Int} (h : a ≠ 0) : a.sign * a.sign = 1 := by
  rcases lt_or_gt_of_ne h with h' | h'
  · rw [Int.sign_eq_neg_one_of_neg h']; decide
  · rw [Int.sign_eq_one_of_pos h']; decide

/-! ### Byte-buffer and bit lemmas -/

lemma getD_set_self {l : List Nat} {i : Nat} {v : Nat} (h : i < l.length) :
    (l.set i v).getD i 0 = v := by
  rw [List.getD_eq_getElem?_getD, List.getElem?_set_self h]
  rfl

lemma getD_set_ne {l : List Nat} {i j : Nat} (v : Nat) (h : i ≠ j) :
    (l.set i v).getD j 0 = l.getD j 0 := by
  rw [List.getD_eq_getElem?_getD, List.getElem?_set_ne h,
    ← List.getD_eq_getElem?_getD]

lemma set_getD_self : ∀ (l : List Nat) (i : Nat), l.set i (l.getD i 0) = l
  | [], _ => rfl
  | _ :: _, 0 => rfl
  | a :: t, i + 1 => by
    show a :: t.set i (t.getD i 0) = a :: t
    rw [set_getD_self t i]

lemma getD_zipWith_xor : ∀ (l1 l2 : List Nat) (i : Nat), i < l1.length →
    i < l2.length →
    (List.zipWith (fun a b => a ^^^ b) l1 l2).getD i 0 =
      l1.getD i 0 ^^^ l2.getD i 0
  | [], _, _, h, _ => by simp at h
  | _ :: _, [], _, _, h => by simp at h
  | a :: t1, b :: t2, 0, _, _ => rfl
  | a :: t1, b :: t2, i + 1, h1, h2 => by
    show (List.zipWith _ t1 t2).getD i 0 = t1.getD i 0 ^^^ t2.getD i 0
    exact getD_zipWith_xor t1 t2 i (by simpa using h1) (by simpa using h2)

lemma getD_replicate (n : Nat) (v : Nat) (i : Nat) (h : i < n) :
    (List.replicate n v).getD i 0 = v := by
  rw [List.getD_eq_getElem?_getD, List.getElem?_replicate]
  simp [h]

lemma bne_zero_and_two_pow (B b : Nat) : ((B &&& (1 <<< b)) != 0) = B.testBit b := by
  rw [Nat.shiftLeft_eq, one_mul, Nat.and_two_pow]
  cases h : B.testBit b
  · simp
  · have h2 : 0 < 2 ^ b := Nat.pos_pow_of_pos b (by omega)
    simpa using by omega

lemma testBit_flip_self (B b : Nat) : (B ^^^ (1 <<< b)).testBit b = !B.testBit b := by
  rw [Nat.testBit_xor, Nat.shiftLeft_eq, one_mul, Nat.testBit_two_pow]
  simp

lemma testBit_flip_other (B b b' : Nat) (h : b ≠ b') :
    (B ^^^ (1 <<< b)).testBit b' = B.testBit b' := by
  rw [Nat.testBit_xor, Nat.shiftLeft_eq, one_mul, Nat.testBit_two_pow]
  simp [h]

lemma testBit_setbyte_self (B b : Nat) (v : Bool) (hb : b < 8) :
    (((B &&& (255 ^^^ (1 <<< b))) ||| (v.toNat <<< b)).testBit b) = v := by
  rw [Nat.testBit_or, Nat.testBit_and, Nat.testBit_xor, Nat.shiftLeft_eq, one_mul,
    Nat.testBit_two_pow, Nat.testBit_shiftLeft]
  have h255 : (255 : Nat).testBit b = true := by
    have : (255 : Nat) = 2 ^ 8 - 1 := by norm_num
    rw [this, Nat.testBit_two_pow_sub_one]
    simp [hb]
  rw [h255]
  cases v <;> simp

lemma testBit_setbyte_other (B b b' : Nat) (v : Bool) (hb' : b' < 8) (h : b ≠ b') :
    (((B &&& (255 ^^^ (1 <<< b))) ||| (v.toNat <<< b)).testBit b') = B.testBit b' := by
  rw [Nat.testBit_or, Nat.testBit_and, Nat.testBit_xor, Nat.shiftLeft_eq, one_mul,
    Nat.testBit_two_pow, Nat.testBit_shiftLeft]
  have h255 : (255 : Nat).testBit b' = true := by
    have : (255 : Nat) = 2 ^ 8 - 1 := by norm_num
    rw [this, Nat.testBit_two_pow_sub_one]
    simp [hb']
  have hv : v.toNat.testBit (b' - b) = false ∨ ¬ b' ≥ b := by
    rcases Nat.lt_or_ge b' b with h' | h'
    · right; omega
    · left
      have hpos : 0 < b' - b := by omega
      cases v
      · simp [Nat.testBit]
      · show Nat.testBit 1 (b' - b) = false
        rcases Nat.exists_eq_add_of_lt hpos with ⟨k, hk⟩
        have : b' - b = k + 1 := by omega
        rw [this]
        simp [Nat.testBit_succ]
  rw [h255]
  rcases hv with hv | hv
  · simp [h, hv]
  · simp [h, hv]

/-! ### BitGrid structural lemmas -/

/-- Canonical (in-range) coordinates of a grid. -/
def BitGrid.Canon (g : BitGrid) (x y z : Int) : Prop :=
  0 ≤ x ∧ x < g.width ∧ 0 ≤ y ∧ y < g.height ∧ 0 ≤ z ∧ z < g.depth

lemma wrap_eq_emod {c E : Int} (hE : 0 < E) (hc : -E ≤ c) :
    (c + E).tmod E = c % E := by
  rw [Int.tmod_eq_emod (by omega) hE.le]
  simpa using Int.add_mul_emod_self_left c E 1

lemma wrap_canonical {c E : Int} (h0 : 0 ≤ c) (h1 : c < E) :
    (c + E).tmod E = c := by
  rw [wrap_eq_emod (by omega) (by omega), Int.emod_eq_of_lt h0 h1]

lemma wrap_range {c E : Int} (hE : 0 < E) (hc : -E ≤ c) :
    0 ≤ (c + E).tmod E ∧ (c + E).tmod E < E := by
  rw [wrap_eq_emod hE hc]
  exact ⟨Int.emod_nonneg c hE.ne', Int.emod_lt_of_pos c hE⟩

lemma toNat_mul_nonneg {a b : Int} (ha : 0 ≤ a) (hb : 0 ≤ b) :
    (a * b).toNat = a.toNat * b.toNat := by
  obtain ⟨m, rfl⟩ := Int.eq_ofNat_of_zero_le ha
  obtain ⟨n, rfl⟩ := Int.eq_ofNat_of_zero_le hb
  rfl

namespace BitGrid

/-- The linear bit position of canonical coordinates. -/
def lin (g : BitGrid) (x y z : Int) : Nat :=
  x.toNat + y.toNat * g.width.toNat + z.toNat * (g.width * g.height).toNat

lemma idx_of_canon {g : BitGrid} {x y z : Int} (h : g.Canon x y z) :
    g.idx x y z = (g.lin x y z / 8, g.lin x y z % 8) := by
  obtain ⟨h1, h2, h3, h4, h5, h6⟩ := h
  unfold idx lin
  rw [wrap_canonical h1 h2, wrap_canonical h3 h4, wrap_canonical h5 h6]

lemma lin_lt {g : BitGrid} {x y z : Int} (h : g.Canon x y z) :
    g.lin x y z < (g.width * g.height * g.depth).toNat := by
  obtain ⟨h1, h2, h3, h4, h5, h6⟩ := h
  have hw : 0 < g.width := by omega
  have hh : 0 < g.height := by omega
  have hd : 0 < g.depth := by omega
  unfold lin
  rw [toNat_mul_nonneg (by positivity) hd.le, toNat_mul_nonneg hw.le hh.le]
  have hx : x.toNat < g.width.toNat := (Int.toNat_lt_toNat hw).mpr h2
  have hy : y.toNat < g.height.toNat := (Int.toNat_lt_toNat hh).mpr h4
  have hz : z.toNat < g.depth.toNat := (Int.toNat_lt_toNat hd).mpr h6
  set W := g.width.toNat
  set H := g.height.toNat
  set D := g.depth.toNat
  calc x.toNat + y.toNat * W + z.toNat * (W * H)
      < W + y.toNat * W + z.toNat * (W * H) := by omega
    _ = (1 + y.toNat) * W + z.toNat * (W * H) := by ring
    _ ≤ H * W + z.toNat * (W * H) := by
        have : 1 + y.toNat ≤ H := by omega
        have := Nat.mul_le_mul_right W this
        omega
    _ = (1 + z.toNat) * (W * H) := by ring
    _ ≤ D * (W * H) := by
        have : 1 + z.toNat ≤ D := by omega
        exact Nat.mul_le_mul_right (W * H) this
    _ = W * H * D := by ring

lemma idx_byte_lt {g : BitGrid} {x y z : Int} (hwf : g.Wf) (h : g.Canon x y z) :
    (g.idx x y z).1 < g.buf.length := by
  rw [idx_of_canon h, hwf]
  have := lin_lt h
  omega

lemma lin_inj_nat {W H : Nat} {X1 Y1 Z1 X2 Y2 Z2 : Nat}
    (h1 : X1 < W) (h2 : X2 < W) (h3 : Y1 < H) (h4 : Y2 < H)
    (he : X1 + Y1 * W + Z1 * (W * H) = X2 + Y2 * W + Z2 * (W * H)) :
    X1 = X2 ∧ Y1 = Y2 ∧ Z1 = Z2 := by
  have hW : 0 < W := by omega
  have hH : 0 < H := by omega
  have e1 : X1 + Y1 * W + Z1 * (W * H) = X1 + W * (Y1 + Z1 * H) := by ring
  have e2 : X2 + Y2 * W + Z2 * (W * H) = X2 + W * (Y2 + Z2 * H) := by ring
  rw [e1, e2] at he
  have hx : X1 = X2 := by
    have m1 : (X1 + W * (Y1 + Z1 * H)) % W = X1 % W :=
      Nat.add_mul_mod_self_left X1 W (Y1 + Z1 * H)
    have m2 : (X2 + W * (Y2 + Z2 * H)) % W = X2 % W :=
      Nat.add_mul_mod_self_left X2 W (Y2 + Z2 * H)
    rw [Nat.mod_eq_of_lt h1] at m1
    rw [Nat.mod_eq_of_lt h2] at m2
    rw [he] at m1
    rw [m2] at m1
    omega
  subst hx
  have he2 : Y1 + Z1 * H = Y2 + Z2 * H := by
    have := Nat.add_left_cancel he
    exact Nat.eq_of_mul_eq_mul_left hW this
  have hy : Y1 = Y2 := by
    have m1 : (Y1 + H * Z1) % H = Y1 % H := Nat.add_mul_mod_self_left Y1 H Z1
    have m2 : (Y2 + H * Z2) % H = Y2 % H := Nat.add_mul_mod_self_left Y2 H Z2
    rw [Nat.mod_eq_of_lt h3] at m1
    rw [Nat.mod_eq_of_lt h4] at m2
    have he3 : Y1 + H * Z1 = Y2 + H * Z2 := by
      rw [mul_comm H Z1, mul_comm H Z2]; exact he2
    rw [he3, m2] at m1
    omega
  subst hy
  refine ⟨rfl, rfl, ?_⟩
  have := Nat.add_left_cancel he2
  exact Nat.eq_of_mul_eq_mul_right hH this

lemma idx_inj {g : BitGrid} {x1 y1 z1 x2 y2 z2 : Int}
    (c1 : g.Canon x1 y1 z1) (c2 : g.Canon x2 y2 z2)
    (he : g.idx x1 y1 z1 = g.idx x2 y2 z2) : x1 = x2 ∧ y1 = y2 ∧ z1 = z2 := by
  rw [idx_of_canon c1, idx_of_canon c2] at he
  have hlin : g.lin x1 y1 z1 = g.lin x2 y2 z2 := by
    have hq : g.lin x1 y1 z1 / 8 = g.lin x2 y2 z2 / 8 := congrArg Prod.fst he
    have hr : g.lin x1 y1 z1 % 8 = g.lin x2 y2 z2 % 8 := congrArg Prod.snd he
    omega
  obtain ⟨w1, w2, w3, w4, w5, w6⟩ := c1
  obtain ⟨v1, v2, v3, v4, v5, v6⟩ := c2
  have hw : 0 < g.width := by omega
  have hh : 0 < g.height := by omega
  unfold lin at hlin
  rw [toNat_mul_nonneg hw.le hh.le] at hlin
  obtain ⟨ex, ey, ez⟩ := lin_inj_nat
    ((Int.toNat_lt_toNat hw).mpr w2) ((Int.toNat_lt_toNat hw).mpr v2)
    ((Int.toNat_lt_toNat hh).mpr w4) ((Int.toNat_lt_toNat hh).mpr v4) hlin
  refine ⟨?_, ?_, ?_⟩
  · rw [← Int.toNat_of_nonneg w1, ← Int.toNat_of_nonneg v1, ex]
  · rw [← Int.toNat_of_nonneg w3, ← Int.toNat_of_nonneg v3, ey]
  · rw [← Int.toNat_of_nonneg w5, ← Int.toNat_of_nonneg v5, ez]

end BitGrid

namespace BitGrid

lemma get_eq_testBit (g : BitGrid) (x y z : Int) :
    g.get x y z = (g.buf.getD (g.idx x y z).1 0).testBit (g.idx x y z).2 :=
  bne_zero_and_two_pow _ _

lemma idx_bit_lt (g : BitGrid) (x y z : Int) : (g.idx x y z).2 < 8 :=
  Nat.mod_lt _ (by omega)

lemma flip_fst (g : BitGrid) (x y z : Int) : (g.flip x y z).1 = g.get x y z := rfl

lemma set_fst (g : BitGrid) (x y z : Int) (v : Bool) :
    (g.set x y z v).1 = g.get x y z := rfl

lemma flip_buf (g : BitGrid) (x y z : Int) :
    (g.flip x y z).2.buf =
      g.buf.set (g.idx x y z).1
        (g.buf.getD (g.idx x y z).1 0 ^^^ (1 <<< (g.idx x y z).2)) := rfl

lemma set_buf (g : BitGrid) (x y z : Int) (v : Bool) :
    (g.set x y z v).2.buf =
      g.buf.set (g.idx x y z).1
        ((g.buf.getD (g.idx x y z).1 0 &&& (255 ^^^ (1 <<< (g.idx x y z).2))) |||
          (v.toNat <<< (g.idx x y z).2)) := rfl

lemma get_flip_same {g : BitGrid} {x y z x' y' z' : Int}
    (hidx : g.idx x' y' z' = g.idx x y z)
    (hlen : (g.idx x y z).1 < g.buf.length) :
    (g.flip x y z).2.get x' y' z' = !(g.get x' y' z') := by
  rw [get_eq_testBit, get_eq_testBit]
  have hidx2 : (g.flip x y z).2.idx x' y' z' = g.idx x y z := hidx
  rw [hidx2, hidx, flip_buf, getD_set_self hlen, testBit_flip_self]

lemma get_flip_other_byte {g : BitGrid} {x y z x' y' z' : Int}
    (hbyte : (g.idx x y z).1 ≠ (g.idx x' y' z').1) :
    (g.flip x y z).2.get x' y' z' = g.get x' y' z' := by
  rw [get_eq_testBit, get_eq_testBit]
  have hidx2 : (g.flip x y z).2.idx x' y' z' = g.idx x' y' z' := rfl
  rw [hidx2, flip_buf, getD_set_ne _ hbyte]

lemma get_flip_other_bit {g : BitGrid} {x y z x' y' z' : Int}
    (hbit : (g.idx x y z).2 ≠ (g.idx x' y' z').2)
    (hbyte : (g.idx x y z).1 = (g.idx x' y' z').1) :
    (g.flip x y z).2.get x' y' z' = g.get x' y' z' := by
  rw [get_eq_testBit, get_eq_testBit]
  have hidx2 : (g.flip x y z).2.idx x' y' z' = g.idx x' y' z' := rfl
  rw [hidx2, flip_buf, hbyte]
  rcases Nat.lt_or_ge (g.idx x' y' z').1 g.buf.length with h | h
  · rw [getD_set_self h, testBit_flip_other _ _ _ hbit]
  · rw [List.set_eq_of_length_le h]

lemma get_set_same {g : BitGrid} {x y z x' y' z' : Int} {v : Bool}
    (hidx : g.idx x' y' z' = g.idx x y z)
    (hlen : (g.idx x y z).1 < g.buf.length) :
    (g.set x y z v).2.get x' y' z' = v := by
  rw [get_eq_testBit]
  have hidx2 : (g.set x y z v).2.idx x' y' z' = g.idx x y z := hidx
  rw [hidx2, set_buf, getD_set_self hlen]
  exact testBit_setbyte_self _ _ _ (g.idx_bit_lt x y z)

lemma get_set_other {g : BitGrid} {x y z x' y' z' : Int} {v : Bool}
    (hne : g.idx x y z ≠ g.idx x' y' z') :
    (g.set x y z v).2.get x' y' z' = g.get x' y' z' := by
  rw [get_eq_testBit, get_eq_testBit]
  have hidx2 : (g.set x y z v).2.idx x' y' z' = g.idx x' y' z' := rfl
  rw [hidx2, set_buf]
  rcases Nat.decEq (g.idx x y z).1 (g.idx x' y' z').1 with hbyte | hbyte
  · rw [getD_set_ne _ hbyte]
  · have hbit : (g.idx x y z).2 ≠ (g.idx x' y' z').2 := by
      intro hbit
      exact hne (Prod.ext hbyte hbit)
    rw [hbyte]
    rcases Nat.lt_or_ge (g.idx x' y' z').1 g.buf.length with h | h
    · rw [getD_set_self h]
      exact testBit_setbyte_other _ _ _ _ (g.idx_bit_lt x' y' z') hbit
    · rw [List.set_eq_of_length_le h]

/-- Flipping the same raw coordinates twice restores the grid exactly. -/
lemma flip_flip (g : BitGrid) (x y z : Int) :
    ((g.flip x y z).2.flip x y z).2 = g := by
  have hidx : (g.flip x y z).2.idx x y z = g.idx x y z := rfl
  rcases hg : g with ⟨buf, w, h, d⟩
  rw [← hg]
  have hb : ((g.flip x y z).2.flip x y z).2.buf = g.buf := by
    rw [flip_buf, hidx, flip_buf]
    rcases Nat.lt_or_ge (g.idx x y z).1 g.buf.length with hl | hl
    · rw [getD_set_self hl, List.set_set, Nat.xor_cancel_right]
      exact set_getD_self g.buf (g.idx x y z).1
    · simp only [List.set_eq_of_length_le hl]
  have hw : ((g.flip x y z).2.flip x y z).2.width = g.width := rfl
  have hh : ((g.flip x y z).2.flip x y z).2.height = g.height := rfl
  have hd : ((g.flip x y z).2.flip x y z).2.depth = g.depth := rfl
  rcases he : ((g.flip x y z).2.flip x y z).2 with ⟨buf', w', h', d'⟩
  rw [he] at hb hw hh hd
  rcases hg with rfl
  simp only at hb hw hh hd
  rw [hb, hw, hh, hd]

lemma flip_wf {g : BitGrid} (hwf : g.Wf) (x y z : Int) : (g.flip x y z).2.Wf := by
  unfold Wf at hwf ⊢
  rw [flip_buf]
  simpa using hwf

end BitGrid

namespace BitGrid

/-- Flipping through raw coordinates whose index equals that of canonical
coordinates `(cx, cy, cz)` toggles exactly that cell and no other. -/
lemma flip_toggles_exactly {g : BitGrid} (hwf : g.Wf) {x y z cx cy cz : Int}
    (hceq : g.idx x y z = g.idx cx cy cz) (hcanon : g.Canon cx cy cz) :
    (g.flip x y z).2.get cx cy cz = !(g.get cx cy cz) ∧
    ∀ x' y' z', g.Canon x' y' z' → (x', y', z') ≠ (cx, cy, cz) →
      (g.flip x y z).2.get x' y' z' = g.get x' y' z' := by
  have hlen : (g.idx x y z).1 < g.buf.length := by
    rw [hceq]; exact idx_byte_lt hwf hcanon
  constructor
  · exact get_flip_same hceq.symm hlen
  · intro x' y' z' hc' hne
    have hidxne : g.idx x y z ≠ g.idx x' y' z' := by
      intro he
      rw [hceq] at he
      obtain ⟨e1, e2, e3⟩ := idx_inj hcanon hc' he
      exact hne (by simp [e1, e2, e3])
    rcases Nat.decEq (g.idx x y z).1 (g.idx x' y' z').1 with hbyte | hbyte
    · exact get_flip_other_byte hbyte
    · have hbit : (g.idx x y z).2 ≠ (g.idx x' y' z').2 := fun hbit =>
        hidxne (Prod.ext hbyte hbit)
      exact get_flip_other_bit hbit hbyte

lemma wrap_shift {c E k : Int} (hE : 0 < E) (h1 : -E ≤ c) (h2 : -E ≤ c + k * E) :
    ((c + k * E) + E).tmod E = (c + E).tmod E := by
  rw [wrap_eq_emod hE h2, wrap_eq_emod hE h1, mul_comm]
  exact Int.add_mul_emod_self_left c E k

lemma idx_shift {g : BitGrid} {x y z kx ky kz : Int}
    (hw : 0 < g.width) (hh : 0 < g.height) (hd : 0 < g.depth)
    (hx1 : -g.width ≤ x) (hx2 : -g.width ≤ x + kx * g.width)
    (hy1 : -g.height ≤ y) (hy2 : -g.height ≤ y + ky * g.height)
    (hz1 : -g.depth ≤ z) (hz2 : -g.depth ≤ z + kz * g.depth) :
    g.idx (x + kx * g.width) (y + ky * g.height) (z + kz * g.depth) =
      g.idx x y z := by
  unfold idx
  rw [wrap_shift hw hx1 hx2, wrap_shift hh hy1 hy2, wrap_shift hd hz1 hz2]

/-- The index of an in-band coordinate equals the index of its wrapped
canonical coordinate. -/
lemma idx_eq_idx_wrapped {g : BitGrid} {x y z : Int}
    (hw : 0 < g.width) (hh : 0 < g.height) (hd : 0 < g.depth)
    (hx : -g.width ≤ x) (hy : -g.height ≤ y) (hz : -g.depth ≤ z) :
    g.idx x y z = g.idx ((x + g.width).tmod g.width) ((y + g.height).tmod g.height)
      ((z + g.depth).tmod g.depth) := by
  unfold idx
  rw [wrap_canonical (wrap_range hw hx).1 (wrap_range hw hx).2,
    wrap_canonical (wrap_range hh hy).1 (wrap_range hh hy).2,
    wrap_canonical (wrap_range hd hz).1 (wrap_range hd hz).2]

lemma canon_wrapped {g : BitGrid} {x y z : Int}
    (hw : 0 < g.width) (hh : 0 < g.height) (hd : 0 < g.depth)
    (hx : -g.width ≤ x) (hy : -g.height ≤ y) (hz : -g.depth ≤ z) :
    g.Canon ((x + g.width).tmod g.width) ((y + g.height).tmod g.height)
      ((z + g.depth).tmod g.depth) :=
  ⟨(wrap_range hw hx).1, (wrap_range hw hx).2, (wrap_range hh hy).1,
    (wrap_range hh hy).2, (wrap_range hd hz).1, (wrap_range hd hz).2⟩

end BitGrid

/-- C1: the spec says `fill(value)` bulk-sets every cell to `value` and that
the byte-backed override must behave like the trait's per-cell default.
`BitGrid`'s override is inverted: `fill(true)` writes `0x00` bytes, so `get`
afterwards returns `false` everywhere, while the `Grid` default loop
(`defaultFill`) sets the cell to `true`.  Evaluated at the failing input: a
fresh 1×1×1 grid. -/
theorem c1_bitgrid_fill_inverted :
    ((BitGrid.new 1 1 1).fill true).get 0 0 0 = false ∧
    (defaultFill (BitGrid.new 1 1 1) true).get 0 0 0 = true ∧
    ((BitGrid.new 1 1 1).fill false).get 0 0 0 = true ∧
    (defaultFill (BitGrid.new 1 1 1) false).get 0 0 0 = false := by
  decide

/-- C5: toroidal wrap law.  For positive extents and raw coordinates within
one wrap period of the valid range (each axis coordinate at least `-extent`),
`get` is invariant under shifting any axis by a whole number of extents, as
long as the shifted coordinate also stays within one wrap period. -/
theorem c5_wrap_law (g : BitGrid) (x y z kx ky kz : Int)
    (hw : 0 < g.width) (hh : 0 < g.height) (hd : 0 < g.depth)
    (hx1 : -g.width ≤ x) (hx2 : -g.width ≤ x + kx * g.width)
    (hy1 : -g.height ≤ y) (hy2 : -g.height ≤ y + ky * g.height)
    (hz1 : -g.depth ≤ z) (hz2 : -g.depth ≤ z + kz * g.depth) :
    g.get (x + kx * g.width) (y + ky * g.height) (z + kz * g.depth) =
      g.get x y z := by
  rw [BitGrid.get_eq_testBit, BitGrid.get_eq_testBit,
    BitGrid.idx_shift hw hh hd hx1 hx2 hy1 hy2 hz1 hz2]

/-- C5 witness. -/
theorem c5_wrap_law_witness :
    (BitGrid.new 4 3 2).get (1 + 2 * (BitGrid.new 4 3 2).width)
      (-1 + 1 * (BitGrid.new 4 3 2).height) (1 + 0 * (BitGrid.new 4 3 2).depth) =
      (BitGrid.new 4 3 2).get 1 (-1) 1 :=
  c5_wrap_law (BitGrid.new 4 3 2) 1 (-1) 1 2 1 0 (by decide) (by decide)
    (by decide) (by decide) (by decide) (by decide) (by decide) (by decide)
    (by decide)

/-- C6: `get`/`set`/`flip` self-consistency on a wellformed grid with positive
extents, for every coordinate within one wrap period of the valid range:
`set` returns the prior value and a subsequent `get` of the same coordinate
reads the stored value; `flip` returns the prior value, toggles exactly the
addressed cell and leaves every other cell unchanged. -/
theorem c6_get_set_flip_consistent (g : BitGrid) (x y z : Int) (v : Bool)
    (hwf : g.Wf) (hw : 0 < g.width) (hh : 0 < g.height) (hd : 0 < g.depth)
    (hx : -g.width ≤ x) (hy : -g.height ≤ y) (hz : -g.depth ≤ z) :
    (g.set x y z v).1 = g.get x y z ∧
    (g.set x y z v).2.get x y z = v ∧
    (g.flip x y z).1 = g.get x y z ∧
    (g.flip x y z).2.get x y z = !(g.get x y z) ∧
    (∀ x' y' z', g.Canon x' y' z' →
      (x', y', z') ≠ ((x + g.width).tmod g.width, (y + g.height).tmod g.height,
        (z + g.depth).tmod g.depth) →
      (g.flip x y z).2.get x' y' z' = g.get x' y' z') := by
  have hceq := BitGrid.idx_eq_idx_wrapped hw hh hd hx hy hz
  have hcanon := BitGrid.canon_wrapped hw hh hd hx hy hz
  have hlen : (g.idx x y z).1 < g.buf.length := by
    rw [hceq]; exact BitGrid.idx_byte_lt hwf hcanon
  obtain ⟨htog, hother⟩ := BitGrid.flip_toggles_exactly hwf hceq hcanon
  refine ⟨BitGrid.set_fst g x y z v, ?_, BitGrid.flip_fst g x y z, ?_, hother⟩
  · exact BitGrid.get_set_same rfl hlen
  · exact BitGrid.get_flip_same rfl hlen

/-- C6 witness. -/
theorem c6_get_set_flip_consistent_witness :
    ((BitGrid.new 3 2 1).set (-1) 1 0 true).1 = (BitGrid.new 3 2 1).get (-1) 1 0 ∧
    ((BitGrid.new 3 2 1).set (-1) 1 0 true).2.get (-1) 1 0 = true ∧
    ((BitGrid.new 3 2 1).flip (-1) 1 0).1 = (BitGrid.new 3 2 1).get (-1) 1 0 ∧
    ((BitGrid.new 3 2 1).flip (-1) 1 0).2.get (-1) 1 0 =
      !((BitGrid.new 3 2 1).get (-1) 1 0) ∧
    (∀ x' y' z', (BitGrid.new 3 2 1).Canon x' y' z' →
      (x', y', z') ≠ (((-1) + (BitGrid.new 3 2 1).width).tmod (BitGrid.new 3 2 1).width,
        (1 + (BitGrid.new 3 2 1).height).tmod (BitGrid.new 3 2 1).height,
        (0 + (BitGrid.new 3 2 1).depth).tmod (BitGrid.new 3 2 1).depth) →
      ((BitGrid.new 3 2 1).flip (-1) 1 0).2.get x' y' z' =
        (BitGrid.new 3 2 1).get x' y' z') :=
  c6_get_set_flip_consistent (BitGrid.new 3 2 1) (-1) 1 0 true (by decide)
    (by decide) (by decide) (by decide) (by decide) (by decide) (by decide)

/-- C7 counterexample: the claim says `diff_with` aborts whenever the two
grids' dimensions on all axes are not identical, but the code only asserts
width and height.  Two grids differing in depth only are accepted. -/
theorem c7_diff_with_counterexample :
    (BitGrid.new 2 2 1).depth ≠ (BitGrid.new 2 2 2).depth ∧
    (BitGrid.new 2 2 1).diff_with (BitGrid.new 2 2 2) ≠ none := by
  decide

/-- C7 amended: `diff_with` aborts exactly when widths or heights differ; when
all three dimensions are identical it returns a new wellformed grid of the
same dimensions whose cells are the xor of the inputs, bit for bit (the inputs
are read only, so they are unchanged). -/
theorem c7_diff_with_characterized (g1 g2 : BitGrid) (hwf1 : g1.Wf)
    (hwf2 : g2.Wf) :
    ((g1.width ≠ g2.width ∨ g1.height ≠ g2.height) → g1.diff_with g2 = none) ∧
    (g1.width = g2.width → g1.height = g2.height → g1.depth = g2.depth →
      ∃ d, g1.diff_with g2 = some d ∧ d.width = g1.width ∧
        d.height = g1.height ∧ d.depth = g1.depth ∧ d.Wf ∧
        ∀ x y z, g1.Canon x y z →
          d.get x y z = (g1.get x y z != g2.get x y z)) := by
  constructor
  · intro hne
    unfold BitGrid.diff_with
    rw [if_neg (by tauto)]
  · intro hw hh hd
    unfold BitGrid.diff_with
    rw [if_pos ⟨hw, hh⟩]
    have hlen2 : g2.buf.length = g1.buf.length := by
      have h2 := hwf2
      unfold BitGrid.Wf at h2
      rw [← hw, ← hh, ← hd] at h2
      rw [h2, hwf1]
    have hnewlen : (BitGrid.new g1.width g1.height g1.depth).buf.length =
        g1.buf.length := by
      rw [hwf1]; simp [BitGrid.new]
    refine ⟨_, rfl, rfl, rfl, rfl, ?_, ?_⟩
    · show (_ ++ _ : List Nat).length = _
      rw [List.length_append, List.length_zipWith, List.length_replicate,
        hlen2, hnewlen]
      have hwf1' := hwf1
      unfold BitGrid.Wf at hwf1'
      simp only [BitGrid.new, min_self]
      omega
    · intro x y z hc
      have hidx2 : g2.idx x y z = g1.idx x y z := by
        unfold BitGrid.idx
        rw [← hw, ← hh, ← hd]
      have hi1 : (g1.idx x y z).1 < g1.buf.length := BitGrid.idx_byte_lt hwf1 hc
      have hi2 : (g1.idx x y z).1 < g2.buf.length := by rw [hlen2]; exact hi1
      rw [BitGrid.get_eq_testBit, BitGrid.get_eq_testBit, BitGrid.get_eq_testBit,
        hidx2]
      show ((List.zipWith (fun a b => a ^^^ b) g1.buf g2.buf ++
        List.replicate ((BitGrid.new g1.width g1.height g1.depth).buf.length -
          min g1.buf.length g2.buf.length) 0).getD (g1.idx x y z).1 0).testBit
          (g1.idx x y z).2 = _
      rw [hlen2, hnewlen, min_self, Nat.sub_self, List.replicate_zero,
        List.append_nil, getD_zipWith_xor g1.buf g2.buf _ hi1 hi2,
        Nat.testBit_xor]

/-- C7 witness for the amended characterization, at two concrete 2×2×1
grids. -/
theorem c7_diff_with_characterized_witness :
    (((BitGrid.new 2 2 1).width ≠ (BitGrid.new 2 2 1).width ∨
        (BitGrid.new 2 2 1).height ≠ (BitGrid.new 2 2 1).height) →
      (BitGrid.new 2 2 1).diff_with (BitGrid.new 2 2 1) = none) ∧
    ((BitGrid.new 2 2 1).width = (BitGrid.new 2 2 1).width →
      (BitGrid.new 2 2 1).height = (BitGrid.new 2 2 1).height →
      (BitGrid.new 2 2 1).depth = (BitGrid.new 2 2 1).depth →
      ∃ d, (BitGrid.new 2 2 1).diff_with (BitGrid.new 2 2 1) = some d ∧
        d.width = (BitGrid.new 2 2 1).width ∧
        d.height = (BitGrid.new 2 2 1).height ∧
        d.depth = (BitGrid.new 2 2 1).depth ∧ d.Wf ∧
        ∀ x y z, (BitGrid.new 2 2 1).Canon x y z →
          d.get x y z =
            ((BitGrid.new 2 2 1).get x y z != (BitGrid.new 2 2 1).get x y z)) :=
  c7_diff_with_characterized (BitGrid.new 2 2 1) (BitGrid.new 2 2 1)
    (by decide) (by decide)

/-- C4 counterexample: the claim reads `next_multiple_of_n_in_direction` as
returning the smallest multiple of `n` that is `≥` the current position.  At
`(i, n, dir) = (2, 2, 1)` the smallest multiple of `2` at least `2` is `2`
itself, but the function returns `4`: it always moves strictly, so the claim
as stated (including its minimality reading) is false. -/
theorem c4_next_multiple_counterexample :
    ¬ (∀ i n dir : Int, 1 ≤ |n| → dir ≠ 0 →
      (|n| ∣ next_multiple_of_n_in_direction i n dir ∧
       i ≤ next_multiple_of_n_in_direction i n dir ∧
       ∀ m : Int, |n| ∣ m → i ≤ m →
         next_multiple_of_n_in_direction i n dir ≤ m)) := by
  intro h
  obtain ⟨-, -, hmin⟩ := h 2 2 1 (by decide) (by decide)
  have h4 : next_multiple_of_n_in_direction 2 2 1 = 4 := by decide
  have hle := hmin 2 ⟨1, by norm_num⟩ (by omega)
  rw [h4] at hle
  omega

/-- C4 amended: for `|n| ≥ 1`, `next_multiple_of_n_in_direction i n dir`
returns the nearest multiple of `|n|` strictly beyond `i` in the direction of
travel — the unique multiple in `(i, i + |n|]` when `dir ≥ 0` and the unique
multiple in `[i - |n|, i)` when `dir < 0` — and the two documented cases
`(9, 5, -1) = 5` and `(-9, -10, -1) = -10` hold. -/
theorem c4_next_multiple_characterized :
    (∀ i n dir : Int, 1 ≤ |n| →
      ((0 ≤ dir →
        |n| ∣ next_multiple_of_n_in_direction i n dir ∧
        i < next_multiple_of_n_in_direction i n dir ∧
        next_multiple_of_n_in_direction i n dir ≤ i + |n|) ∧
       (dir < 0 →
        |n| ∣ next_multiple_of_n_in_direction i n dir ∧
        i - |n| ≤ next_multiple_of_n_in_direction i n dir ∧
        next_multiple_of_n_in_direction i n dir < i))) ∧
    next_multiple_of_n_in_direction 9 5 (-1) = 5 ∧
    next_multiple_of_n_in_direction (-9) (-10) (-1) = -10 := by
  refine ⟨?_, by decide, by decide⟩
  intro i n dir hn
  have hne : n ≠ 0 := by
    intro h
    rw [h] at hn
    simp at hn
  exact ⟨fun ha => next_multiple_spec_nonneg i n dir hne ha,
         fun ha => next_multiple_spec_neg i n dir hne ha⟩

/-- C4 witness: the characterization applied at the documented input
`(9, 5, -1)`. -/
theorem c4_next_multiple_characterized_witness :
    |(5 : Int)| ∣ next_multiple_of_n_in_direction 9 5 (-1) ∧
    9 - |(5 : Int)| ≤ next_multiple_of_n_in_direction 9 5 (-1) ∧
    next_multiple_of_n_in_direction 9 5 (-1) < 9 :=
  (c4_next_multiple_characterized.1 9 5 (-1) (by decide)).2 (by decide)

lemma set_snd_width (g : BitGrid) (x y z : Int) (v : Bool) :
    (g.set x y z v).2.width = g.width := rfl

lemma set_snd_height (g : BitGrid) (x y z : Int) (v : Bool) :
    (g.set x y z v).2.height = g.height := rfl

lemma set_snd_depth (g : BitGrid) (x y z : Int) (v : Bool) :
    (g.set x y z v).2.depth = g.depth := rfl

lemma setRow_dims (markers : List Char) (y : Int) :
    ∀ (cs : List Char) (x : Int) (g : BitGrid),
      (setRow markers y x g cs).width = g.width ∧
      (setRow markers y x g cs).height = g.height ∧
      (setRow markers y x g cs).depth = g.depth
  | [], _, _ => ⟨rfl, rfl, rfl⟩
  | c :: cs, x, g => by
    obtain ⟨h1, h2, h3⟩ := setRow_dims markers y cs (x + 1)
      (if markers.contains c then (g.set x y 0 true).2 else g)
    refine ⟨h1.trans ?_, h2.trans ?_, h3.trans ?_⟩ <;> split <;> rfl

lemma applyRows_dims (markers : List Char) :
    ∀ (rows : List String) (y : Int) (g : BitGrid),
      (applyRows markers y g rows).width = g.width ∧
      (applyRows markers y g rows).height = g.height ∧
      (applyRows markers y g rows).depth = g.depth
  | [], _, _ => ⟨rfl, rfl, rfl⟩
  | row :: rest, y, g => by
    obtain ⟨h1, h2, h3⟩ := applyRows_dims markers rest (y + 1)
      (setRow markers y 0 g row.toList)
    obtain ⟨s1, s2, s3⟩ := setRow_dims markers y row.toList 0 g
    exact ⟨h1.trans s1, h2.trans s2, h3.trans s3⟩

/-- The parser's line loop equals the skip-free loop over the stripped,
non-empty rows taken in order with consecutive row indices. -/
lemma parseLines_eq_applyRows (markers : List Char) :
    ∀ (ls : List String) (y : Int) (g : BitGrid),
      parseLines markers y g ls =
        applyRows markers y g ((ls.map stripComment).filter (fun l => l ≠ "")) := by
  intro ls
  induction ls with
  | nil => intro y g; rfl
  | cons line rest ih =>
    intro y g
    by_cases hst : stripComment line = ""
    · have hstep : parseLines markers y g (line :: rest) =
          parseLines markers y g rest := by
        show (if stripComment line = "" then parseLines markers y g rest
          else parseLines markers (y + 1)
            (setRow markers y 0 g (stripComment line).toList) rest) = _
        rw [if_pos hst]
      rw [hstep, ih]
      congr 1
      simp [hst]
    · have hstep : parseLines markers y g (line :: rest) =
          parseLines markers (y + 1) (setRow markers y 0 g (stripComment line).toList) rest := by
        show (if stripComment line = "" then parseLines markers y g rest
          else parseLines markers (y + 1)
            (setRow markers y 0 g (stripComment line).toList) rest) = _
        rw [if_neg hst]
      rw [hstep, ih]
      have hfil : (((line :: rest).map stripComment).filter (fun l => l ≠ "")) =
          stripComment line :: ((rest.map stripComment).filter (fun l => l ≠ "")) := by
        simp [hst]
      rw [hfil]
      rfl

/-- C10: on the non-panicking domain (at least two lines and a first line of
length at least two, so that the `usize` subtractions and the wrapping in
`set` cannot fault), `BitGrid::parse` always returns `Some` grid; its width is
the first line's length minus one and its height the line count minus one
(depth 1), and lines that are empty after comment stripping are skipped
without advancing the row index: the grid equals the skip-free placement of
the stripped non-empty rows at consecutive row indices. -/
theorem c10_parse_total (text : String) (markers : List Char)
    (hl : 2 ≤ (rustLines text).length)
    (hfl : 2 ≤ ((rustLines text).headD "").length) :
    ∃ g, BitGrid.parse text markers = some g ∧
      g.width = (((rustLines text).headD "").length : Int) - 1 ∧
      g.height = ((rustLines text).length : Int) - 1 ∧
      g.depth = 1 ∧
      g = applyRows markers 0
        (BitGrid.new ((((rustLines text).headD "").length : Int) - 1)
          (((rustLines text).length : Int) - 1) 1)
        (((rustLines text).map stripComment).filter (fun l => l ≠ "")) := by
  rcases hrl : rustLines text with _ | ⟨l, rest⟩
  · rw [hrl] at hl
    simp at hl
  · rw [hrl] at hl hfl
    have hlen : ((l.length - 1 : Nat) : Int) = (l.length : Int) - 1 := by
      simp at hfl
      omega
    have hcnt : (((l :: rest).length - 1 : Nat) : Int) = ((l :: rest).length : Int) - 1 := by
      simp
    refine ⟨parseLines markers 0
        (BitGrid.new ((l.length - 1 : Nat) : Int)
          (((l :: rest).length - 1 : Nat) : Int) 1) (l :: rest), ?_, ?_, ?_, ?_, ?_⟩
    · unfold BitGrid.parse
      rw [hrl]
    · obtain ⟨h1, -, -⟩ := applyRows_dims markers _ _ _
      rw [parseLines_eq_applyRows, h1]
      show ((l.length - 1 : Nat) : Int) = _
      simpa using hlen
    · obtain ⟨-, h2, -⟩ := applyRows_dims markers _ _ _
      rw [parseLines_eq_applyRows, h2]
      show (((l :: rest).length - 1 : Nat) : Int) = _
      simpa using hcnt
    · obtain ⟨-, -, h3⟩ := applyRows_dims markers _ _ _
      rw [parseLines_eq_applyRows, h3]
      rfl
    · rw [parseLines_eq_applyRows]
      congr 2 <;> simp [hlen]

/-- C10 witness: a concrete two-line pattern. -/
theorem c10_parse_total_witness :
    ∃ g, BitGrid.parse (String.mk ['O', '.', '\n', '.', 'O', '\n']) ['O'] = some g ∧
      g.width = (((rustLines (String.mk ['O', '.', '\n', '.', 'O', '\n'])).headD "").length : Int) - 1 ∧
      g.height = ((rustLines (String.mk ['O', '.', '\n', '.', 'O', '\n'])).length : Int) - 1 ∧
      g.depth = 1 ∧
      g = applyRows ['O'] 0
        (BitGrid.new ((((rustLines (String.mk ['O', '.', '\n', '.', 'O', '\n'])).headD "").length : Int) - 1)
          (((rustLines (String.mk ['O', '.', '\n', '.', 'O', '\n'])).length : Int) - 1) 1)
        (((rustLines (String.mk ['O', '.', '\n', '.', 'O', '\n'])).map stripComment).filter
          (fun l => l ≠ "")) :=
  c10_parse_total (String.mk ['O', '.', '\n', '.', 'O', '\n']) ['O'] (by decide) (by decide)

lemma checkedTmod_of_ne {a b : Int} (hb : b ≠ 0) :
    checkedTmod a b = some (a.tmod b) := by
  simp [checkedTmod, hb]

lemma checkedTdiv_of_ne {a b : Int} (hb : b ≠ 0) :
    checkedTdiv a b = some (a.tdiv b) := by
  simp [checkedTdiv, hb]

lemma positive_modulo_checked_eq {i n : Int} (hn : n ≠ 0) :
    positive_modulo_checked i n = some (positive_modulo i n) := by
  have habs : |n| ≠ 0 := by simpa using hn
  simp [positive_modulo_checked, checkedTmod_of_ne habs, positive_modulo]

lemma next_multiple_core_checked_eq {i n : Int} (hn : n ≠ 0) :
    next_multiple_core_checked i n = some (next_multiple_core i n) := by
  simp [next_multiple_core_checked, positive_modulo_checked_eq hn,
    next_multiple_core]

lemma next_multiple_checked_eq {i n a : Int} (hn : n ≠ 0) :
    next_multiple_of_n_in_direction_checked i n a =
      some (next_multiple_of_n_in_direction i n a) := by
  unfold next_multiple_of_n_in_direction_checked next_multiple_of_n_in_direction
  by_cases ha : a < 0
  · simp [ha, next_multiple_core_checked_eq (neg_ne_zero.mpr hn)]
  · simp [ha, next_multiple_core_checked_eq hn]

lemma flip_bit_checked_eq (ops : GridOps γ) (st : BitFlipper γ) (d : Int) :
    flip_bit_checked ops st d = some (flip_bit ops st d) := by
  have hx := (clamp1_pos st.dir.x).ne'
  have hy := (clamp1_pos st.dir.y).ne'
  have hz := (clamp1_pos st.dir.z).ne'
  simp [flip_bit_checked, flip_bit, checkedTdiv, hx, hy, hz]

/-- C8: an elementary `BitFlipper` step never divides by zero.  Every divisor
the step forms — the clamped other-axes products fed to
`next_multiple_of_n_in_direction`/`positive_modulo` and the clamped direction
components in `flip_bit` — is at least 1, so the division-checked step always
succeeds (a `none` would be a Rust division-by-zero fault), for every state,
every direction vector (zero components included) and any grid backend. -/
theorem c8_no_division_by_zero {γ : Type} (ops : GridOps γ)
    (st : BitFlipper γ) (d : Int) :
    flip_and_advance_once_checked ops st d =
      some (flip_and_advance_once ops st d) := by
  have hxy : clamp1 st.dir.x * clamp1 st.dir.y ≠ 0 :=
    (mul_pos (clamp1_pos st.dir.x) (clamp1_pos st.dir.y)).ne'
  have hxz : clamp1 st.dir.x * clamp1 st.dir.z ≠ 0 :=
    (mul_pos (clamp1_pos st.dir.x) (clamp1_pos st.dir.z)).ne'
  have hyz : clamp1 st.dir.y * clamp1 st.dir.z ≠ 0 :=
    (mul_pos (clamp1_pos st.dir.y) (clamp1_pos st.dir.z)).ne'
  simp [flip_and_advance_once_checked, flip_and_advance_once,
    flip_bit_checked_eq, next_multiple_checked_eq hxy,
    next_multiple_checked_eq hxz, next_multiple_checked_eq hyz]

/-- C9: `BitFlipper` reaches its grid only through `flip`: one elementary step
on the instrumenting backend appends exactly one event to the log, that event
is a `flip` (so no `get` or `set` call is ever made), the wrapped `BitGrid`
evolves by exactly that flip, and it matches the evolution of the plain
`BitGrid` backend. -/
theorem c9_flip_only_access (pos dir sign : IVec3) (g : BitGrid)
    (log : List GridEvent) (d : Int) :
    ∃ x y z,
      (flip_and_advance_once loggingOps ⟨pos, dir, sign, (g, log)⟩ d).grid.2 =
        log ++ [GridEvent.flip x y z] ∧
      (flip_and_advance_once loggingOps ⟨pos, dir, sign, (g, log)⟩ d).grid.1 =
        (g.flip x y z).2 ∧
      (flip_and_advance_once bitGridOps ⟨pos, dir, sign, g⟩ d).grid =
        (flip_and_advance_once loggingOps ⟨pos, dir, sign, (g, log)⟩ d).grid.1 :=
  ⟨_, _, _, rfl, rfl, rfl⟩

/-! ### Per-axis analysis of the elementary step -/

lemma sign_pm {D : Int} (hD : D ≠ 0) : D.sign = 1 ∨ D.sign = -1 := by
  rcases lt_or_gt_of_ne hD with h | h
  · exact Or.inr (Int.sign_eq_neg_one_of_neg h)
  · exact Or.inl (Int.sign_eq_one_of_pos h)

lemma reflect_vals {p B D s d : Int} (hD : D ≠ 0) (hs : s = 1 ∨ s = -1)
    (hd : d = 1 ∨ d = -1) :
    reflect_sign p B D s d = 1 ∨ reflect_sign p B D s d = -1 := by
  have h1 := sign_pm hD
  have h2 : d.sign = 1 ∨ d.sign = -1 := by
    rcases hd with h | h <;> rw [h] <;> simp
  unfold reflect_sign
  split_ifs <;> simp only [] <;>
    first
      | exact hs
      | (rcases h1 with h1 | h1 <;> rcases h2 with h2 | h2 <;> rw [h1, h2] <;>
          norm_num)

/-- The effective travel direction of an axis after reflection: `+1` only if
the position is strictly below the upper bound, `-1` only if it is strictly
above `0`. -/
lemma reflect_travel {p B D s d : Int} (hB : 0 < B) (hD : D ≠ 0)
    (hs : s = 1 ∨ s = -1) (hd : d = 1 ∨ d = -1) :
    (d * D.sign * reflect_sign p B D s d = 1 ∨
     d * D.sign * reflect_sign p B D s d = -1) ∧
    (d * D.sign * reflect_sign p B D s d = 1 → p < B) ∧
    (d * D.sign * reflect_sign p B D s d = -1 → 0 < p) := by
  have h1 := sign_pm hD
  have hv := reflect_vals (p := p) (B := B) hD hs hd
  refine ⟨?_, ?_, ?_⟩
  · rcases hv with hv | hv <;> rw [hv] <;> rcases hd with h | h <;>
      rcases h1 with h1 | h1 <;> rw [h, h1] <;> norm_num
  · intro hσ
    by_contra hpB
    push_neg at hpB
    have hrefl : reflect_sign p B D s d = -D.sign * d.sign := by
      unfold reflect_sign
      rw [if_pos hpB]
    rw [hrefl] at hσ
    rcases hd with h | h <;> rcases h1 with h1 | h1 <;> rw [h, h1] at hσ <;>
      simp at hσ <;> omega
  · intro hσ
    by_contra hp0
    push_neg at hp0
    have hnB : ¬ p ≥ B := by omega
    have hrefl : reflect_sign p B D s d = D.sign * d.sign := by
      unfold reflect_sign
      rw [if_neg hnB, if_pos hp0]
    rw [hrefl] at hσ
    rcases hd with h | h <;> rcases h1 with h1 | h1 <;> rw [h, h1] at hσ <;>
      simp at hσ <;> omega

/-- With `D = 0` the axis is inert: the advance term and the
`next_multiple` direction argument are both zero. -/
lemma axis_inert {p B s d : Int} :
    d * (0 : Int).sign * reflect_sign p B 0 s d = 0 ∧
    (0 : Int) * reflect_sign p B 0 s d * d = 0 := by
  constructor <;> simp

/-- The `next_multiple` direction argument of an axis equals `|D|` times the
axis's effective travel sign. -/
lemma arg_eq_abs_mul_sigma (D s' d : Int) :
    D * s' * d = |D| * (d * D.sign * s') := by
  conv_lhs => rw [← Int.sign_mul_abs D]
  ring

lemma mul_pos_one_le {E n : Int} (hE : 1 ≤ E) (hn : 1 ≤ n) : 0 < E * n :=
  mul_pos (by omega) (by omega)

/-- Forward distance facts: every axis distance is in `[1, n]`, and it is
exactly `n` when the position sits on a multiple of `n`. -/
lemma axis_dist_facts {n : Int} (hn : 1 ≤ n) (p arg : Int) :
    1 ≤ |next_multiple_of_n_in_direction p n arg - p| ∧
    |next_multiple_of_n_in_direction p n arg - p| ≤ n ∧
    (n ∣ p → |next_multiple_of_n_in_direction p n arg - p| = n) := by
  have hne : n ≠ 0 := by omega
  have habs : |n| = n := abs_of_pos (by omega)
  by_cases ha : arg < 0
  · obtain ⟨hdv, hl, hu⟩ := next_multiple_spec_neg p n arg hne ha
    rw [habs] at hdv hl
    have he : |next_multiple_of_n_in_direction p n arg - p| =
        p - next_multiple_of_n_in_direction p n arg := by
      rw [abs_of_neg (by omega)]; ring
    refine ⟨by omega, by omega, ?_⟩
    intro hdp
    have hnxt : next_multiple_of_n_in_direction p n arg = p - n := by
      refine multiple_in_window_unique (n := n) (by omega) hdv
        (dvd_sub hdp ⟨1, by ring⟩) (c := p - n - 1) (by omega) (by omega)
        (by omega) (by omega)
    omega
  · obtain ⟨hdv, hl, hu⟩ := next_multiple_spec_nonneg p n arg hne (by omega)
    rw [habs] at hdv hu
    have he : |next_multiple_of_n_in_direction p n arg - p| =
        next_multiple_of_n_in_direction p n arg - p := by
      rw [abs_of_pos (by omega)]
    refine ⟨by omega, by omega, ?_⟩
    intro hdp
    have hnxt : next_multiple_of_n_in_direction p n arg = p + n := by
      refine multiple_in_window_unique (n := n) (by omega) hdv
        (dvd_add hdp ⟨1, by ring⟩) (c := p) (by omega) (by omega)
        (by omega) (by omega)
    omega

/-- The characterization of the next crossing, rephrased by the travel sign
`σ` (with `arg = |D| * σ` this matches the step's actual argument). -/
lemma axis_next_char {n p arg : Int} (hn : 1 ≤ n) :
    (0 ≤ arg → n ∣ next_multiple_of_n_in_direction p n arg ∧
      p < next_multiple_of_n_in_direction p n arg ∧
      next_multiple_of_n_in_direction p n arg ≤ p + n) ∧
    (arg < 0 → n ∣ next_multiple_of_n_in_direction p n arg ∧
      p - n ≤ next_multiple_of_n_in_direction p n arg ∧
      next_multiple_of_n_in_direction p n arg < p) := by
  have hne : n ≠ 0 := by omega
  have habs : |n| = n := abs_of_pos (by omega)
  constructor
  · intro ha
    obtain ⟨hdv, hl, hu⟩ := next_multiple_spec_nonneg p n arg hne ha
    rw [habs] at hdv hu
    exact ⟨hdv, hl, hu⟩
  · intro ha
    obtain ⟨hdv, hl, hu⟩ := next_multiple_spec_neg p n arg hne ha
    rw [habs] at hdv hl
    exact ⟨hdv, hl, hu⟩

/-- Advancing by at most the distance to the next crossing keeps the scaled
position inside `[0, E*n]`. -/
lemma axis_adv_bounds {E n p m σ nxt : Int} (hn : 1 ≤ n) (hE : 1 ≤ E)
    (hp0 : 0 ≤ p) (hpB : p ≤ E * n)
    (hσ : σ = 0 ∨ σ = 1 ∨ σ = -1)
    (hup : σ = 1 → p < E * n ∧ n ∣ nxt ∧ p < nxt ∧ nxt ≤ p + n)
    (hdn : σ = -1 → 0 < p ∧ n ∣ nxt ∧ p - n ≤ nxt ∧ nxt < p)
    (hm1 : 1 ≤ m) (hm2 : m ≤ |nxt - p|) :
    0 ≤ p + m * σ ∧ p + m * σ ≤ E * n := by
  rcases hσ with h | h | h
  · subst h; constructor <;> omega
  · subst h
    obtain ⟨hlt, hdv, h1, h2⟩ := hup rfl
    have hEn : n ∣ E * n := ⟨E, mul_comm E n⟩
    have hnxtB : nxt ≤ E * n := by
      rcases le_or_lt (p + n) (E * n) with hc2 | hc2
      · omega
      · have := multiple_in_window_unique (n := n) (by omega) hdv hEn
          (c := p) h1 h2 (by omega) (by omega)
        omega
    have habs : |nxt - p| = nxt - p := abs_of_nonneg (by omega)
    rw [habs] at hm2
    constructor <;> omega
  · subst h
    obtain ⟨hlt, hdv, h1, h2⟩ := hdn rfl
    have hnxt0 : 0 ≤ nxt := by
      rcases le_or_lt 0 (p - n) with hc | hc
      · omega
      · have h0 : nxt = 0 := multiple_in_window_unique (n := n) (by omega) hdv
          (dvd_zero n) (c := p - n - 1) (by omega) (by omega) (by omega) (by omega)
        omega
    have habs : |nxt - p| = p - nxt := by rw [abs_of_neg (by omega)]; ring
    rw [habs] at hm2
    constructor <;> omega

/-- Advancing by exactly the distance lands on a multiple of the scale. -/
lemma axis_landing {n p m σ nxt : Int}
    (hσ : σ = 1 ∨ σ = -1)
    (hup : σ = 1 → n ∣ nxt ∧ p < nxt)
    (hdn : σ = -1 → n ∣ nxt ∧ nxt < p)
    (hm : m = |nxt - p|) :
    n ∣ p + m * σ := by
  rcases hσ with h | h
  · subst h
    obtain ⟨hdv, h1⟩ := hup rfl
    have : p + m * 1 = nxt := by rw [hm, abs_of_pos (by omega)]; ring
    rw [this]; exact hdv
  · subst h
    obtain ⟨hdv, h1⟩ := hdn rfl
    have : p + m * (-1) = nxt := by
      rw [hm, abs_of_neg (by omega)]; ring
    rw [this]; exact hdv

/-- The flipped cell index along an axis is a canonical coordinate. -/
lemma axis_cell_range {E n p arg : Int} (hn : 1 ≤ n) (hE : 1 ≤ E)
    (hp0 : 0 ≤ p) (hpB : p ≤ E * n)
    (hup : 0 < arg → p < E * n) (hdn : arg < 0 → 0 < p)
    (hz : arg = 0 → p = 0) :
    0 ≤ (if arg < 0 then p - 1 else p).tdiv n ∧
    (if arg < 0 then p - 1 else p).tdiv n < E := by
  by_cases ha : arg < 0
  · rw [if_pos ha]
    have hp1 : 0 < p := hdn ha
    rw [Int.tdiv_eq_ediv (by omega) (by omega)]
    refine ⟨Int.ediv_nonneg (by omega) (by omega), ?_⟩
    rw [Int.ediv_lt_iff_lt_mul (by omega)]
    omega
  · rw [if_neg ha]
    have hplt : p < E * n := by
      rcases lt_or_eq_of_le (not_lt.mp ha) with h | h
      · exact hup h
      · have := hz h.symm
        subst this
        exact mul_pos_one_le hE hn
    rw [Int.tdiv_eq_ediv hp0 (by omega)]
    refine ⟨Int.ediv_nonneg hp0 (by omega), ?_⟩
    rw [Int.ediv_lt_iff_lt_mul (by omega)]
    omega


lemma ediv_window {n : Int} (p : Int) (hn : 0 < n) :
    n * (p / n) ≤ p ∧ p < n * (p / n) + n := by
  have h1 := Int.ediv_add_emod p n
  have h2 := Int.emod_nonneg p hn.ne'
  have h3 := Int.emod_lt_of_pos p hn
  omega

/-- The cell flipped by the inverse step (from the advanced position, with the
decrement applied on the opposite side) is the cell the forward step
flipped. -/
lemma axis_cell_undo {n p m nxt σ : Int} (hn : 1 ≤ n) (hp0 : 0 ≤ p)
    (hσ : σ = 0 ∨ σ = 1 ∨ σ = -1)
    (hup : σ = 1 → n ∣ nxt ∧ p < nxt ∧ nxt ≤ p + n)
    (hdn : σ = -1 → 0 < p ∧ n ∣ nxt ∧ p - n ≤ nxt ∧ nxt < p)
    (hz : σ = 0 → p = 0)
    (hm1 : 1 ≤ m) (hm2 : m ≤ |nxt - p|) :
    (if σ = 1 then (p + m * σ) - 1 else p + m * σ).tdiv n =
      (if σ = -1 then p - 1 else p).tdiv n := by
  rcases hσ with h | h | h
  · subst h
    norm_num
  · subst h
    rw [if_pos rfl, if_neg (by omega)]
    obtain ⟨hk1, hk2⟩ := ediv_window p (by omega : (0:Int) < n)
    obtain ⟨hdv, h1, h2⟩ := hup rfl
    have hnxt : nxt = n * (p / n) + n :=
      multiple_in_window_unique (n := n) (c := p) (by omega) hdv
        ⟨p / n + 1, by ring⟩ h1 h2 (by omega) (by omega)
    have habs : |nxt - p| = nxt - p := abs_of_nonneg (by omega)
    rw [habs] at hm2
    rw [Int.tdiv_eq_ediv (by omega) (by omega), Int.tdiv_eq_ediv hp0 (by omega)]
    have hx : n * (p / n + 1) = n * (p / n) + n := by ring
    have e1 : (p + m * 1 - 1) / n = p / n :=
      ediv_eq_of_window (by omega) (by omega) (by omega)
    rw [e1]
  · subst h
    rw [if_neg (by omega), if_pos rfl]
    obtain ⟨hp1, hdv, h1, h2⟩ := hdn rfl
    obtain ⟨hk1, hk2⟩ := ediv_window (p - 1) (by omega : (0:Int) < n)
    have hk0 : 0 ≤ (p - 1) / n := Int.ediv_nonneg (by omega) (by omega)
    have hnxt : nxt = n * ((p - 1) / n) :=
      multiple_in_window_unique (n := n) (c := p - n - 1) (by omega) hdv
        ⟨(p - 1) / n, rfl⟩ (by omega) (by omega) (by omega) (by omega)
    have habs : |nxt - p| = p - nxt := by rw [abs_of_neg (by omega)]; ring
    rw [habs] at hm2
    rw [Int.tdiv_eq_ediv (by nlinarith) (by omega),
      Int.tdiv_eq_ediv (by omega) (by omega)]
    have hx : n * ((p - 1) / n + 1) = n * ((p - 1) / n) + n := by ring
    have e1 : (p + m * (-1)) / n = (p - 1) / n :=
      ediv_eq_of_window (by omega) (by omega) (by omega)
    rw [e1]

/-- The inverse step's distance to the next crossing is `m + n - dist`, where
`dist` was the forward distance and `m ≤ dist` the amount actually moved. -/
lemma axis_dist_undo {n p m nxt nxt' σ : Int} (hn : 1 ≤ n) (hp0 : 0 ≤ p)
    (hσ : σ = 1 ∨ σ = -1)
    (hup : σ = 1 → n ∣ nxt ∧ p < nxt ∧ nxt ≤ p + n)
    (hdn : σ = -1 → 0 < p ∧ n ∣ nxt ∧ p - n ≤ nxt ∧ nxt < p)
    (hm1 : 1 ≤ m) (hm2 : m ≤ |nxt - p|)
    (hup' : σ = -1 → n ∣ nxt' ∧ (p + m * σ) < nxt' ∧ nxt' ≤ (p + m * σ) + n)
    (hdn' : σ = 1 → n ∣ nxt' ∧ (p + m * σ) - n ≤ nxt' ∧ nxt' < (p + m * σ)) :
    |nxt' - (p + m * σ)| = m + n - |nxt - p| := by
  rcases hσ with h | h
  · subst h
    obtain ⟨hdv, h1, h2⟩ := hup rfl
    obtain ⟨hdv', h1', h2'⟩ := hdn' rfl
    have habs : |nxt - p| = nxt - p := abs_of_nonneg (by omega)
    rw [habs] at hm2 ⊢
    have hnxt' : nxt' = nxt - n :=
      multiple_in_window_unique (n := n) (c := p + m * 1 - n - 1) (by omega)
        hdv' (dvd_sub hdv ⟨1, by ring⟩) (by omega) (by omega) (by omega)
        (by omega)
    rw [abs_of_nonpos (by omega)]
    omega
  · subst h
    obtain ⟨hp1, hdv, h1, h2⟩ := hdn rfl
    obtain ⟨hdv', h1', h2'⟩ := hup' rfl
    have habs : |nxt - p| = p - nxt := by rw [abs_of_neg (by omega)]; ring
    rw [habs] at hm2 ⊢
    have hnxt' : nxt' = nxt + n :=
      multiple_in_window_unique (n := n) (c := p + m * (-1)) (by omega)
        hdv' (dvd_add hdv ⟨1, by ring⟩) h1' h2' (by omega) (by omega)
    rw [abs_of_nonneg (by omega)]
    omega

/-- The distance to the next crossing from position `0` in a non-negative
direction is the full scale `n` (the stationary-axis distance). -/
lemma axis_dist_zero {n arg : Int} (hn : 1 ≤ n) (ha : 0 ≤ arg) :
    |next_multiple_of_n_in_direction 0 n arg - 0| = n := by
  have hne : n ≠ 0 := by omega
  have habs : |n| = n := abs_of_pos (by omega)
  obtain ⟨hdv, h1, h2⟩ := next_multiple_spec_nonneg 0 n arg hne ha
  rw [habs] at hdv h2
  have hv : next_multiple_of_n_in_direction 0 n arg = n :=
    multiple_in_window_unique (n := n) (c := 0) (by omega) hdv ⟨1, by ring⟩
      h1 (by omega) (by omega) (by omega)
  rw [hv, sub_zero, abs_of_pos (by omega)]

/-- The inverse step's reflection restores the forward step's effective sign:
starting the backward step from the advanced position, the reflected sign
times the direction component equals the forward's, for any stored sign `t`
that agrees in the interior. -/
lemma axis_sign_undo {E n p m s s' t D d : Int}
    (hn : 1 ≤ n) (hE : 1 ≤ E) (hd : d = 1 ∨ d = -1) (hD : D ≠ 0)
    (hs : s = 1 ∨ s = -1)
    (hs' : s' = reflect_sign p (E * n) D s d)
    (hp0 : 0 ≤ p) (hpB : p ≤ E * n)
    (hm1 : 1 ≤ m)
    (hp'0 : 0 ≤ p + m * (d * D.sign * s'))
    (hp'B : p + m * (d * D.sign * s') ≤ E * n)
    (ht : 0 < p + m * (d * D.sign * s') → p + m * (d * D.sign * s') < E * n →
      D * t = D * s') :
    D * reflect_sign (p + m * (d * D.sign * s')) (E * n) D t (-d) = D * s' := by
  have hs'v : s' = 1 ∨ s' = -1 := by
    rw [hs']
    exact reflect_vals hD hs hd
  unfold reflect_sign
  split_ifs with hB2 h0 h0
  · -- p' ≥ E*n and p' ≤ 0: impossible since E*n ≥ 1
    exfalso
    have := mul_pos_one_le hE hn
    rcases hd with rfl | rfl <;> rcases sign_pm hD with hDs | hDs <;>
      rcases hs'v with hsv | hsv <;> rw [hDs, hsv] at hB2 h0 <;>
      simp at hB2 h0 <;> omega
  · -- p' ≥ E*n (upper bound): travel was upward, s' = d * D.sign
    simp only []
    rcases hd with rfl | rfl <;> rcases sign_pm hD with hDs | hDs <;>
      rcases hs'v with hsv | hsv <;> rw [hDs, hsv] at hB2 hp'B ⊢ <;>
      norm_num <;> omega
  · -- p' ≤ 0 (lower bound): travel was downward, s' = -d * D.sign
    simp only []
    rcases hd with rfl | rfl <;> rcases sign_pm hD with hDs | hDs <;>
      rcases hs'v with hsv | hsv <;> rw [hDs, hsv] at h0 hp'0 ⊢ <;>
      norm_num <;> omega
  · -- interior: the stored sign already agrees
    simp only []
    push_neg at hB2 h0
    exact ht (by omega) (by omega)

lemma move_amount_eq_min {a b c : Int} (ha : 1 ≤ a) (hb : 1 ≤ b) (hc : 1 ≤ c)
    (ha' : a ≤ 2147483646) (hb' : b ≤ 2147483646) (hc' : c ≤ 2147483646) :
    move_amount a b c = min (min a b) c := by
  unfold move_amount
  simp only []
  split_ifs <;> omega

/-- The scaled-space unit of the x axis: the product of the other axes'
clamped direction magnitudes. -/
def scaleX (dir : IVec3) : Int := clamp1 dir.y * clamp1 dir.z

/-- The scaled-space unit of the y axis. -/
def scaleY (dir : IVec3) : Int := clamp1 dir.x * clamp1 dir.z

/-- The scaled-space unit of the z axis. -/
def scaleZ (dir : IVec3) : Int := clamp1 dir.x * clamp1 dir.y

lemma scaleX_pos (dir : IVec3) : 0 < scaleX dir :=
  mul_pos (clamp1_pos dir.y) (clamp1_pos dir.z)

lemma scaleY_pos (dir : IVec3) : 0 < scaleY dir :=
  mul_pos (clamp1_pos dir.x) (clamp1_pos dir.z)

lemma scaleZ_pos (dir : IVec3) : 0 < scaleZ dir :=
  mul_pos (clamp1_pos dir.x) (clamp1_pos dir.y)

/-- The invariant maintained by the elementary step on a `BitGrid`-backed
`BitFlipper`: positive extents, the scaled position inside `[0, extent*scale]`
on every axis, zero-direction axes pinned at the origin, stored signs in
`{1, -1}` on moving axes, some moving axis sitting exactly on a grid line
(unless no axis moves), and the scales small enough that every axis distance
stays below the `i32::MAX` seed of the minimum fold. -/
structure FlipperInv (st : BitFlipper BitGrid) : Prop where
  hw : 1 ≤ st.grid.width
  hh : 1 ≤ st.grid.height
  hdp : 1 ≤ st.grid.depth
  hx0 : 0 ≤ st.pos.x
  hxB : st.pos.x ≤ st.grid.width * scaleX st.dir
  hy0 : 0 ≤ st.pos.y
  hyB : st.pos.y ≤ st.grid.height * scaleY st.dir
  hz0 : 0 ≤ st.pos.z
  hzB : st.pos.z ≤ st.grid.depth * scaleZ st.dir
  hsx : st.dir.x = 0 → st.pos.x = 0
  hsy : st.dir.y = 0 → st.pos.y = 0
  hsz : st.dir.z = 0 → st.pos.z = 0
  hgx : st.dir.x ≠ 0 → st.dir_sign.x = 1 ∨ st.dir_sign.x = -1
  hgy : st.dir.y ≠ 0 → st.dir_sign.y = 1 ∨ st.dir_sign.y = -1
  hgz : st.dir.z ≠ 0 → st.dir_sign.z = 1 ∨ st.dir_sign.z = -1
  hmult : (st.dir.x ≠ 0 ∧ scaleX st.dir ∣ st.pos.x) ∨
          (st.dir.y ≠ 0 ∧ scaleY st.dir ∣ st.pos.y) ∨
          (st.dir.z ≠ 0 ∧ scaleZ st.dir ∣ st.pos.z) ∨
          (st.dir.x = 0 ∧ st.dir.y = 0 ∧ st.dir.z = 0)
  hbx : scaleX st.dir ≤ 2147483646
  hby : scaleY st.dir ≤ 2147483646
  hbz : scaleZ st.dir ≤ 2147483646

/-- The x-axis reflected sign computed by the elementary step. -/
def sxF (st : BitFlipper BitGrid) (d : Int) : Int :=
  reflect_sign st.pos.x (st.grid.width * clamp1 st.dir.y * clamp1 st.dir.z)
    st.dir.x st.dir_sign.x d

/-- The y-axis reflected sign computed by the elementary step. -/
def syF (st : BitFlipper BitGrid) (d : Int) : Int :=
  reflect_sign st.pos.y (st.grid.height * clamp1 st.dir.x * clamp1 st.dir.z)
    st.dir.y st.dir_sign.y d

/-- The z-axis reflected sign computed by the elementary step. -/
def szF (st : BitFlipper BitGrid) (d : Int) : Int :=
  reflect_sign st.pos.z (st.grid.depth * clamp1 st.dir.x * clamp1 st.dir.y)
    st.dir.z st.dir_sign.z d

/-- The x-axis next crossing computed by the elementary step. -/
def nxF (st : BitFlipper BitGrid) (d : Int) : Int :=
  next_multiple_of_n_in_direction st.pos.x (clamp1 st.dir.y * clamp1 st.dir.z)
    (st.dir.x * sxF st d * d)

/-- The y-axis next crossing computed by the elementary step. -/
def nyF (st : BitFlipper BitGrid) (d : Int) : Int :=
  next_multiple_of_n_in_direction st.pos.y (clamp1 st.dir.x * clamp1 st.dir.z)
    (st.dir.y * syF st d * d)

/-- The z-axis next crossing computed by the elementary step. -/
def nzF (st : BitFlipper BitGrid) (d : Int) : Int :=
  next_multiple_of_n_in_direction st.pos.z (clamp1 st.dir.x * clamp1 st.dir.y)
    (st.dir.z * szF st d * d)

/-- The common move amount computed by the elementary step. -/
def mF (st : BitFlipper BitGrid) (d : Int) : Int :=
  move_amount |nxF st d - st.pos.x| |nyF st d - st.pos.y| |nzF st d - st.pos.z|

/-- The x coordinate of the cell the elementary step flips. -/
def cellXF (st : BitFlipper BitGrid) (d : Int) : Int :=
  ((if d * st.dir.x * sxF st d < 0 then st.pos.x - 1 else st.pos.x).tdiv
    (clamp1 st.dir.y)).tdiv (clamp1 st.dir.z)

/-- The y coordinate of the cell the elementary step flips. -/
def cellYF (st : BitFlipper BitGrid) (d : Int) : Int :=
  ((if d * st.dir.y * syF st d < 0 then st.pos.y - 1 else st.pos.y).tdiv
    (clamp1 st.dir.x)).tdiv (clamp1 st.dir.z)

/-- The z coordinate of the cell the elementary step flips. -/
def cellZF (st : BitFlipper BitGrid) (d : Int) : Int :=
  ((if d * st.dir.z * szF st d < 0 then st.pos.z - 1 else st.pos.z).tdiv
    (clamp1 st.dir.x)).tdiv (clamp1 st.dir.y)

/-- The elementary step on the `BitGrid` backend, written out componentwise in
terms of the named quantities above (definitionally equal to the step). -/
lemma step_eq (st : BitFlipper BitGrid) (d : Int) :
    flip_and_advance_once bitGridOps st d =
      { pos := ⟨st.pos.x + mF st d * d * st.dir.x.sign * sxF st d,
                st.pos.y + mF st d * d * st.dir.y.sign * syF st d,
                st.pos.z + mF st d * d * st.dir.z.sign * szF st d⟩,
        dir := st.dir,
        dir_sign := ⟨sxF st d, syF st d, szF st d⟩,
        grid := (st.grid.flip (cellXF st d) (cellYF st d) (cellZF st d)).2 } :=
  rfl

lemma clamp1_one_le (a : Int) : 1 ≤ clamp1 a := clamp1_pos a

/-- Everything the invariant proofs need about one axis of a forward
elementary step, stated over plain integers: the travel sign's possible
values, the characterization of the next crossing in each direction of
travel, and the distance bounds. -/
lemma axis_forward_facts {E n p s D d : Int} (hn : 1 ≤ n) (hE : 1 ≤ E)
    (hd : d = 1 ∨ d = -1) (hs : D ≠ 0 → s = 1 ∨ s = -1)
    (hp0 : 0 ≤ p) (hpB : p ≤ E * n) (hstat : D = 0 → p = 0) :
    (d * D.sign * reflect_sign p (E * n) D s d = 0 ∨
     d * D.sign * reflect_sign p (E * n) D s d = 1 ∨
     d * D.sign * reflect_sign p (E * n) D s d = -1) ∧
    (d * D.sign * reflect_sign p (E * n) D s d = 0 → D = 0) ∧
    (D = 0 → d * D.sign * reflect_sign p (E * n) D s d = 0) ∧
    (d * D.sign * reflect_sign p (E * n) D s d = 1 →
      p < E * n ∧
      n ∣ next_multiple_of_n_in_direction p n
        (D * reflect_sign p (E * n) D s d * d) ∧
      p < next_multiple_of_n_in_direction p n
        (D * reflect_sign p (E * n) D s d * d) ∧
      next_multiple_of_n_in_direction p n
        (D * reflect_sign p (E * n) D s d * d) ≤ p + n) ∧
    (d * D.sign * reflect_sign p (E * n) D s d = -1 →
      0 < p ∧
      n ∣ next_multiple_of_n_in_direction p n
        (D * reflect_sign p (E * n) D s d * d) ∧
      p - n ≤ next_multiple_of_n_in_direction p n
        (D * reflect_sign p (E * n) D s d * d) ∧
      next_multiple_of_n_in_direction p n
        (D * reflect_sign p (E * n) D s d * d) < p) ∧
    (1 ≤ |next_multiple_of_n_in_direction p n
        (D * reflect_sign p (E * n) D s d * d) - p| ∧
     |next_multiple_of_n_in_direction p n
        (D * reflect_sign p (E * n) D s d * d) - p| ≤ n ∧
     (n ∣ p → |next_multiple_of_n_in_direction p n
        (D * reflect_sign p (E * n) D s d * d) - p| = n)) := by
  have hB : 0 < E * n := mul_pos_one_le hE hn
  have hdists := axis_dist_facts hn p (D * reflect_sign p (E * n) D s d * d)
  have hargσ := arg_eq_abs_mul_sigma D (reflect_sign p (E * n) D s d) d
  by_cases hD : D = 0
  · have hσ0 : d * D.sign * reflect_sign p (E * n) D s d = 0 := by
      rw [hD]; simp
    refine ⟨Or.inl hσ0, fun _ => hD, fun _ => hσ0, ?_, ?_, hdists⟩
    · intro h; rw [hσ0] at h; omega
    · intro h; rw [hσ0] at h; omega
  · obtain ⟨hσv, hσup, hσdn⟩ := reflect_travel hB hD (hs hD) hd
    have habsD : 1 ≤ |D| := abs_pos.mpr hD
    refine ⟨Or.inr hσv, ?_, fun h => absurd h hD, ?_, ?_, hdists⟩
    · intro h
      rcases hσv with hv | hv <;> rw [hv] at h <;> omega
    · intro h
      have harg : 0 ≤ D * reflect_sign p (E * n) D s d * d := by
        rw [hargσ, h]; omega
      exact ⟨hσup h, (axis_next_char hn).1 harg⟩
    · intro h
      have harg : D * reflect_sign p (E * n) D s d * d < 0 := by
        rw [hargσ, h]
        have : |D| * (-1) = -|D| := by ring
        omega
      exact ⟨hσdn h, (axis_next_char hn).2 harg⟩

/-- One elementary step (in either direction) preserves the invariant. -/
lemma inv_preserved {st : BitFlipper BitGrid} {d : Int} (hd : d = 1 ∨ d = -1)
    (hI : FlipperInv st) : FlipperInv (flip_and_advance_once bitGridOps st d) := by
  obtain ⟨hw, hh, hdp, hx0, hxB, hy0, hyB, hz0, hzB, hsx, hsy, hsz, hgx, hgy,
    hgz, hmult, hbx, hby, hbz⟩ := hI
  simp only [scaleX, scaleY, scaleZ] at hxB hyB hzB hmult hbx hby hbz
  have hsxF : sxF st d = reflect_sign st.pos.x
      (st.grid.width * (clamp1 st.dir.y * clamp1 st.dir.z))
      st.dir.x st.dir_sign.x d := by
    unfold sxF; rw [mul_assoc]
  have hsyF : syF st d = reflect_sign st.pos.y
      (st.grid.height * (clamp1 st.dir.x * clamp1 st.dir.z))
      st.dir.y st.dir_sign.y d := by
    unfold syF; rw [mul_assoc]
  have hszF : szF st d = reflect_sign st.pos.z
      (st.grid.depth * (clamp1 st.dir.x * clamp1 st.dir.y))
      st.dir.z st.dir_sign.z d := by
    unfold szF; rw [mul_assoc]
  have hnxFe : nxF st d = next_multiple_of_n_in_direction st.pos.x
      (clamp1 st.dir.y * clamp1 st.dir.z) (st.dir.x * sxF st d * d) := rfl
  have hnyFe : nyF st d = next_multiple_of_n_in_direction st.pos.y
      (clamp1 st.dir.x * clamp1 st.dir.z) (st.dir.y * syF st d * d) := rfl
  have hnzFe : nzF st d = next_multiple_of_n_in_direction st.pos.z
      (clamp1 st.dir.x * clamp1 st.dir.y) (st.dir.z * szF st d * d) := rfl
  have hnx : (1:Int) ≤ clamp1 st.dir.y * clamp1 st.dir.z :=
    mul_pos (clamp1_pos _) (clamp1_pos _)
  have hny : (1:Int) ≤ clamp1 st.dir.x * clamp1 st.dir.z :=
    mul_pos (clamp1_pos _) (clamp1_pos _)
  have hnz : (1:Int) ≤ clamp1 st.dir.x * clamp1 st.dir.y :=
    mul_pos (clamp1_pos _) (clamp1_pos _)
  obtain ⟨hσvx, hσ0Dx, hD0σx, hupx, hdnx, hd1x, hd2x, hd3x⟩ :=
    axis_forward_facts (E := st.grid.width) hnx hw hd hgx hx0 hxB hsx
  obtain ⟨hσvy, hσ0Dy, hD0σy, hupy, hdny, hd1y, hd2y, hd3y⟩ :=
    axis_forward_facts (E := st.grid.height) hny hh hd hgy hy0 hyB hsy
  obtain ⟨hσvz, hσ0Dz, hD0σz, hupz, hdnz, hd1z, hd2z, hd3z⟩ :=
    axis_forward_facts (E := st.grid.depth) hnz hdp hd hgz hz0 hzB hsz
  rw [← hsxF] at hσvx hσ0Dx hD0σx hupx hdnx hd1x hd2x hd3x
  rw [← hsyF] at hσvy hσ0Dy hD0σy hupy hdny hd1y hd2y hd3y
  rw [← hszF] at hσvz hσ0Dz hD0σz hupz hdnz hd1z hd2z hd3z
  rw [← hnxFe] at hupx hdnx hd1x hd2x hd3x
  rw [← hnyFe] at hupy hdny hd1y hd2y hd3y
  rw [← hnzFe] at hupz hdnz hd1z hd2z hd3z
  have hmFe : mF st d =
      min (min |nxF st d - st.pos.x| |nyF st d - st.pos.y|)
        |nzF st d - st.pos.z| :=
    move_amount_eq_min hd1x hd1y hd1z (le_trans hd2x hbx) (le_trans hd2y hby)
      (le_trans hd2z hbz)
  have hm1 : 1 ≤ mF st d := by rw [hmFe]; omega
  have hm2x : mF st d ≤ |nxF st d - st.pos.x| := by rw [hmFe]; omega
  have hm2y : mF st d ≤ |nyF st d - st.pos.y| := by rw [hmFe]; omega
  have hm2z : mF st d ≤ |nzF st d - st.pos.z| := by rw [hmFe]; omega
  have hmcase : mF st d = |nxF st d - st.pos.x| ∨
      mF st d = |nyF st d - st.pos.y| ∨ mF st d = |nzF st d - st.pos.z| := by
    rw [hmFe]; omega
  have hadvx := axis_adv_bounds hnx hw hx0 hxB hσvx hupx hdnx
    hm1 hm2x
  have hadvy := axis_adv_bounds hny hh hy0 hyB hσvy hupy hdny
    hm1 hm2y
  have hadvz := axis_adv_bounds hnz hdp hz0 hzB hσvz hupz hdnz
    hm1 hm2z
  have hrx : st.pos.x + mF st d * d * st.dir.x.sign * sxF st d =
      st.pos.x + mF st d * (d * st.dir.x.sign * sxF st d) := by ring
  have hry : st.pos.y + mF st d * d * st.dir.y.sign * syF st d =
      st.pos.y + mF st d * (d * st.dir.y.sign * syF st d) := by ring
  have hrz : st.pos.z + mF st d * d * st.dir.z.sign * szF st d =
      st.pos.z + mF st d * (d * st.dir.z.sign * szF st d) := by ring
  rw [step_eq]
  refine ⟨hw, hh, hdp, ?_, ?_, ?_, ?_, ?_, ?_, ?_, ?_, ?_, ?_, ?_, ?_, ?_,
    hbx, hby, hbz⟩
  · show 0 ≤ st.pos.x + mF st d * d * st.dir.x.sign * sxF st d
    rw [hrx]; exact hadvx.1
  · show st.pos.x + mF st d * d * st.dir.x.sign * sxF st d ≤
      st.grid.width * (clamp1 st.dir.y * clamp1 st.dir.z)
    rw [hrx]; exact hadvx.2
  · show 0 ≤ st.pos.y + mF st d * d * st.dir.y.sign * syF st d
    rw [hry]; exact hadvy.1
  · show st.pos.y + mF st d * d * st.dir.y.sign * syF st d ≤
      st.grid.height * (clamp1 st.dir.x * clamp1 st.dir.z)
    rw [hry]; exact hadvy.2
  · show 0 ≤ st.pos.z + mF st d * d * st.dir.z.sign * szF st d
    rw [hrz]; exact hadvz.1
  · show st.pos.z + mF st d * d * st.dir.z.sign * szF st d ≤
      st.grid.depth * (clamp1 st.dir.x * clamp1 st.dir.y)
    rw [hrz]; exact hadvz.2
  · intro hD
    show st.pos.x + mF st d * d * st.dir.x.sign * sxF st d = 0
    rw [hD]
    simp [hsx hD]
  · intro hD
    show st.pos.y + mF st d * d * st.dir.y.sign * syF st d = 0
    rw [hD]
    simp [hsy hD]
  · intro hD
    show st.pos.z + mF st d * d * st.dir.z.sign * szF st d = 0
    rw [hD]
    simp [hsz hD]
  · intro hD
    exact reflect_vals hD (hgx hD) hd
  · intro hD
    exact reflect_vals hD (hgy hD) hd
  · intro hD
    exact reflect_vals hD (hgz hD) hd
  · -- preservation of the on-a-grid-line witness
    show (st.dir.x ≠ 0 ∧ clamp1 st.dir.y * clamp1 st.dir.z ∣
            st.pos.x + mF st d * d * st.dir.x.sign * sxF st d) ∨
         (st.dir.y ≠ 0 ∧ clamp1 st.dir.x * clamp1 st.dir.z ∣
            st.pos.y + mF st d * d * st.dir.y.sign * syF st d) ∨
         (st.dir.z ≠ 0 ∧ clamp1 st.dir.x * clamp1 st.dir.y ∣
            st.pos.z + mF st d * d * st.dir.z.sign * szF st d) ∨
         (st.dir.x = 0 ∧ st.dir.y = 0 ∧ st.dir.z = 0)
    rcases hmult with ⟨hDc, hdvc⟩ | ⟨hDc, hdvc⟩ | ⟨hDc, hdvc⟩ | ⟨h1, h2, h3⟩
    rotate_right
    · exact Or.inr (Or.inr (Or.inr ⟨h1, h2, h3⟩))
    all_goals {
      rcases hmcase with hmm | hmm | hmm
      · by_cases hDx : st.dir.x = 0
        · -- the min axis x is stationary, so the witness axis also attains
          -- the minimum and lands on a multiple
          have hdxfull : |nxF st d - st.pos.x| =
              clamp1 st.dir.y * clamp1 st.dir.z := by
            apply hd3x
            rw [hsx hDx]
            exact dvd_zero _
          have hc1 : clamp1 st.dir.x = 1 := by rw [hDx]; decide
          first
          | (refine Or.inl ⟨hDc, ?_⟩
             exfalso; exact hDc hDx)
          | (refine Or.inr (Or.inl ⟨hDc, ?_⟩)
             have hdcfull := hd3y hdvc
             have hscmp : clamp1 st.dir.x * clamp1 st.dir.z ≤
                 clamp1 st.dir.y * clamp1 st.dir.z := by
               rw [hc1, one_mul]
               exact le_mul_of_one_le_left (by have := clamp1_pos st.dir.z; omega)
                 (clamp1_one_le st.dir.y)
             have hmeq : mF st d = |nyF st d - st.pos.y| := by omega
             rw [hry]
             exact axis_landing
               (by rcases hσvy with h | h; exact absurd (hσ0Dy h) hDc; exact h)
               (fun h => ⟨(hupy h).2.1, (hupy h).2.2.1⟩)
               (fun h => ⟨(hdny h).2.1, (hdny h).2.2.2⟩) hmeq)
          | (refine Or.inr (Or.inr (Or.inl ⟨hDc, ?_⟩))
             have hdcfull := hd3z hdvc
             have hscmp : clamp1 st.dir.x * clamp1 st.dir.y ≤
                 clamp1 st.dir.y * clamp1 st.dir.z := by
               rw [hc1, one_mul]
               exact le_mul_of_one_le_right (by have := clamp1_pos st.dir.y; omega)
                 (clamp1_one_le st.dir.z)
             have hmeq : mF st d = |nzF st d - st.pos.z| := by omega
             rw [hrz]
             exact axis_landing
               (by rcases hσvz with h | h; exact absurd (hσ0Dz h) hDc; exact h)
               (fun h => ⟨(hupz h).2.1, (hupz h).2.2.1⟩)
               (fun h => ⟨(hdnz h).2.1, (hdnz h).2.2.2⟩) hmeq)
        · refine Or.inl ⟨hDx, ?_⟩
          rw [hrx]
          exact axis_landing
            (by rcases hσvx with h | h; exact absurd (hσ0Dx h) hDx; exact h)
            (fun h => ⟨(hupx h).2.1, (hupx h).2.2.1⟩)
            (fun h => ⟨(hdnx h).2.1, (hdnx h).2.2.2⟩) hmm
      · by_cases hDy : st.dir.y = 0
        · have hdyfull : |nyF st d - st.pos.y| =
              clamp1 st.dir.x * clamp1 st.dir.z := by
            apply hd3y
            rw [hsy hDy]
            exact dvd_zero _
          have hc1 : clamp1 st.dir.y = 1 := by rw [hDy]; decide
          first
          | (refine Or.inr (Or.inl ⟨hDc, ?_⟩)
             exfalso; exact hDc hDy)
          | (refine Or.inl ⟨hDc, ?_⟩
             have hdcfull := hd3x hdvc
             have hscmp : clamp1 st.dir.y * clamp1 st.dir.z ≤
                 clamp1 st.dir.x * clamp1 st.dir.z := by
               rw [hc1, one_mul]
               exact le_mul_of_one_le_left (by have := clamp1_pos st.dir.z; omega)
                 (clamp1_one_le st.dir.x)
             have hmeq : mF st d = |nxF st d - st.pos.x| := by omega
             rw [hrx]
             exact axis_landing
               (by rcases hσvx with h | h; exact absurd (hσ0Dx h) hDc; exact h)
               (fun h => ⟨(hupx h).2.1, (hupx h).2.2.1⟩)
               (fun h => ⟨(hdnx h).2.1, (hdnx h).2.2.2⟩) hmeq)
          | (refine Or.inr (Or.inr (Or.inl ⟨hDc, ?_⟩))
             have hdcfull := hd3z hdvc
             have hscmp : clamp1 st.dir.x * clamp1 st.dir.y ≤
                 clamp1 st.dir.x * clamp1 st.dir.z := by
               rw [hc1, mul_one]
               exact le_mul_of_one_le_right (by have := clamp1_pos st.dir.x; omega)
                 (clamp1_one_le st.dir.z)
             have hmeq : mF st d = |nzF st d - st.pos.z| := by omega
             rw [hrz]
             exact axis_landing
               (by rcases hσvz with h | h; exact absurd (hσ0Dz h) hDc; exact h)
               (fun h => ⟨(hupz h).2.1, (hupz h).2.2.1⟩)
               (fun h => ⟨(hdnz h).2.1, (hdnz h).2.2.2⟩) hmeq)
        · refine Or.inr (Or.inl ⟨hDy, ?_⟩)
          rw [hry]
          exact axis_landing
            (by rcases hσvy with h | h; exact absurd (hσ0Dy h) hDy; exact h)
            (fun h => ⟨(hupy h).2.1, (hupy h).2.2.1⟩)
            (fun h => ⟨(hdny h).2.1, (hdny h).2.2.2⟩) hmm
      · by_cases hDz : st.dir.z = 0
        · have hdzfull : |nzF st d - st.pos.z| =
              clamp1 st.dir.x * clamp1 st.dir.y := by
            apply hd3z
            rw [hsz hDz]
            exact dvd_zero _
          have hc1 : clamp1 st.dir.z = 1 := by rw [hDz]; decide
          first
          | (refine Or.inr (Or.inr (Or.inl ⟨hDc, ?_⟩))
             exfalso; exact hDc hDz)
          | (refine Or.inl ⟨hDc, ?_⟩
             have hdcfull := hd3x hdvc
             have hscmp : clamp1 st.dir.y * clamp1 st.dir.z ≤
                 clamp1 st.dir.x * clamp1 st.dir.y := by
               rw [hc1, mul_one, mul_comm]
               exact le_mul_of_one_le_right (by have := clamp1_pos st.dir.y; omega)
                 (clamp1_one_le st.dir.x)
             have hmeq : mF st d = |nxF st d - st.pos.x| := by omega
             rw [hrx]
             exact axis_landing
               (by rcases hσvx with h | h; exact absurd (hσ0Dx h) hDc; exact h)
               (fun h => ⟨(hupx h).2.1, (hupx h).2.2.1⟩)
               (fun h => ⟨(hdnx h).2.1, (hdnx h).2.2.2⟩) hmeq)
          | (refine Or.inr (Or.inl ⟨hDc, ?_⟩)
             have hdcfull := hd3y hdvc
             have hscmp : clamp1 st.dir.x * clamp1 st.dir.z ≤
                 clamp1 st.dir.x * clamp1 st.dir.y := by
               rw [hc1, mul_one]
               exact le_mul_of_one_le_right (by have := clamp1_pos st.dir.x; omega)
                 (clamp1_one_le st.dir.y)
             have hmeq : mF st d = |nyF st d - st.pos.y| := by omega
             rw [hry]
             exact axis_landing
               (by rcases hσvy with h | h; exact absurd (hσ0Dy h) hDc; exact h)
               (fun h => ⟨(hupy h).2.1, (hupy h).2.2.1⟩)
               (fun h => ⟨(hdny h).2.1, (hdny h).2.2.2⟩) hmeq)
        · refine Or.inr (Or.inr (Or.inl ⟨hDz, ?_⟩))
          rw [hrz]
          exact axis_landing
            (by rcases hσvz with h | h; exact absurd (hσ0Dz h) hDz; exact h)
            (fun h => ⟨(hupz h).2.1, (hupz h).2.2.1⟩)
            (fun h => ⟨(hdnz h).2.1, (hdnz h).2.2.2⟩) hmm
    }

/-- The invariant holds at a freshly constructed flipper: the position starts
at the origin and the stored signs at one. -/
lemma inv_init {g : BitGrid} (dv : IVec3)
    (hw : 1 ≤ g.width) (hh : 1 ≤ g.height) (hdp : 1 ≤ g.depth)
    (hbx : scaleX dv ≤ 2147483646) (hby : scaleY dv ≤ 2147483646)
    (hbz : scaleZ dv ≤ 2147483646) :
    FlipperInv (BitFlipper.new_with_grid g dv) := by
  refine ⟨hw, hh, hdp, le_refl 0, ?_, le_refl 0, ?_, le_refl 0, ?_,
    fun _ => rfl, fun _ => rfl, fun _ => rfl,
    fun _ => Or.inl rfl, fun _ => Or.inl rfl, fun _ => Or.inl rfl,
    ?_, hbx, hby, hbz⟩
  · show (0:Int) ≤ g.width * scaleX dv
    exact le_of_lt (mul_pos (by omega) (scaleX_pos dv))
  · show (0:Int) ≤ g.height * scaleY dv
    exact le_of_lt (mul_pos (by omega) (scaleY_pos dv))
  · show (0:Int) ≤ g.depth * scaleZ dv
    exact le_of_lt (mul_pos (by omega) (scaleZ_pos dv))
  · by_cases hx : dv.x = 0
    · by_cases hy : dv.y = 0
      · by_cases hz : dv.z = 0
        · exact Or.inr (Or.inr (Or.inr ⟨hx, hy, hz⟩))
        · exact Or.inr (Or.inr (Or.inl ⟨hz, dvd_zero _⟩))
      · exact Or.inr (Or.inl ⟨hy, dvd_zero _⟩)
    · exact Or.inl ⟨hx, dvd_zero _⟩

/-- In the strict interior of the band the reflection leaves the stored sign
unchanged. -/
lemma reflect_interior {p B D s d : Int} (h1 : 0 < p) (h2 : p < B) :
    reflect_sign p B D s d = s := by
  show (if p ≥ B then -D.sign * d.sign else if p ≤ 0 then D.sign * d.sign
    else s) = s
  rw [if_neg (by omega), if_neg (by omega)]

/-- An axis with zero direction component reflects to the zero sign whenever
the position sits at the origin side of a positive band. -/
lemma reflect_zero_dir {p B s d : Int} (hp : p ≤ 0) (hB : 0 < B) :
    reflect_sign p B 0 s d = 0 := by
  show (if p ≥ B then -(0:Int).sign * d.sign else if p ≤ 0 then
    (0:Int).sign * d.sign else s) = 0
  rw [if_neg (by omega), if_pos hp]
  simp

/-- The travel-sign facts of an axis transported to the raw argument
`d * D * s` that the cell computation branches on. -/
lemma axis_cell_facts {E n p D s d : Int}
    (hσv : d * D.sign * s = 0 ∨ d * D.sign * s = 1 ∨ d * D.sign * s = -1)
    (hσ0D : d * D.sign * s = 0 → D = 0)
    (hup1 : d * D.sign * s = 1 → p < E * n)
    (hdn1 : d * D.sign * s = -1 → 0 < p)
    (hstat : D = 0 → p = 0) :
    (0 < d * D * s → p < E * n) ∧ (d * D * s < 0 → 0 < p) ∧
    (d * D * s = 0 → p = 0) := by
  have hae : d * D * s = |D| * (d * D.sign * s) := by
    rw [← arg_eq_abs_mul_sigma]; ring
  have habs : 0 ≤ |D| := abs_nonneg D
  refine ⟨?_, ?_, ?_⟩
  · intro h
    rcases hσv with hv | hv | hv
    · rw [hv, mul_zero] at hae; omega
    · exact hup1 hv
    · rw [hv] at hae; omega
  · intro h
    rcases hσv with hv | hv | hv
    · rw [hv, mul_zero] at hae; omega
    · rw [hv, mul_one] at hae; omega
    · exact hdn1 hv
  · intro h
    rcases hσv with hv | hv | hv
    · exact hstat (hσ0D hv)
    · rw [hv, mul_one] at hae
      exact hstat (abs_eq_zero.mp (by omega))
    · rw [hv] at hae
      exact hstat (abs_eq_zero.mp (by omega))

/-- The cell flipped by an elementary step has canonical (in-range)
coordinates on every axis, so the grid access does not wrap. -/
lemma step_cells_range {st : BitFlipper BitGrid} {d : Int} (hd : d = 1 ∨ d = -1)
    (hI : FlipperInv st) :
    st.grid.Canon (cellXF st d) (cellYF st d) (cellZF st d) := by
  obtain ⟨hw, hh, hdp, hx0, hxB, hy0, hyB, hz0, hzB, hsx, hsy, hsz, hgx, hgy,
    hgz, hmult, hbx, hby, hbz⟩ := hI
  simp only [scaleX, scaleY, scaleZ] at hxB hyB hzB
  have hsxF : sxF st d = reflect_sign st.pos.x
      (st.grid.width * (clamp1 st.dir.y * clamp1 st.dir.z))
      st.dir.x st.dir_sign.x d := by
    unfold sxF; rw [mul_assoc]
  have hsyF : syF st d = reflect_sign st.pos.y
      (st.grid.height * (clamp1 st.dir.x * clamp1 st.dir.z))
      st.dir.y st.dir_sign.y d := by
    unfold syF; rw [mul_assoc]
  have hszF : szF st d = reflect_sign st.pos.z
      (st.grid.depth * (clamp1 st.dir.x * clamp1 st.dir.y))
      st.dir.z st.dir_sign.z d := by
    unfold szF; rw [mul_assoc]
  have hnx : (1:Int) ≤ clamp1 st.dir.y * clamp1 st.dir.z :=
    mul_pos (clamp1_pos _) (clamp1_pos _)
  have hny : (1:Int) ≤ clamp1 st.dir.x * clamp1 st.dir.z :=
    mul_pos (clamp1_pos _) (clamp1_pos _)
  have hnz : (1:Int) ≤ clamp1 st.dir.x * clamp1 st.dir.y :=
    mul_pos (clamp1_pos _) (clamp1_pos _)
  obtain ⟨hσvx, hσ0Dx, hD0σx, hupx, hdnx, hd1x, hd2x, hd3x⟩ :=
    axis_forward_facts (E := st.grid.width) hnx hw hd hgx hx0 hxB hsx
  obtain ⟨hσvy, hσ0Dy, hD0σy, hupy, hdny, hd1y, hd2y, hd3y⟩ :=
    axis_forward_facts (E := st.grid.height) hny hh hd hgy hy0 hyB hsy
  obtain ⟨hσvz, hσ0Dz, hD0σz, hupz, hdnz, hd1z, hd2z, hd3z⟩ :=
    axis_forward_facts (E := st.grid.depth) hnz hdp hd hgz hz0 hzB hsz
  rw [← hsxF] at hσvx hσ0Dx hupx hdnx
  rw [← hsyF] at hσvy hσ0Dy hupy hdny
  rw [← hszF] at hσvz hσ0Dz hupz hdnz
  obtain ⟨hu1x, hu2x, hu3x⟩ := axis_cell_facts hσvx hσ0Dx
    (fun h => (hupx h).1) (fun h => (hdnx h).1) hsx
  obtain ⟨hu1y, hu2y, hu3y⟩ := axis_cell_facts hσvy hσ0Dy
    (fun h => (hupy h).1) (fun h => (hdny h).1) hsy
  obtain ⟨hu1z, hu2z, hu3z⟩ := axis_cell_facts hσvz hσ0Dz
    (fun h => (hupz h).1) (fun h => (hdnz h).1) hsz
  have hcx := axis_cell_range hnx hw hx0 hxB hu1x hu2x hu3x
  have hcy := axis_cell_range hny hh hy0 hyB hu1y hu2y hu3y
  have hcz := axis_cell_range hnz hdp hz0 hzB hu1z hu2z hu3z
  have hex : cellXF st d = (if d * st.dir.x * sxF st d < 0 then st.pos.x - 1
      else st.pos.x).tdiv (clamp1 st.dir.y * clamp1 st.dir.z) := by
    unfold cellXF
    exact tdiv_tdiv _ (clamp1_pos _) (clamp1_pos _)
  have hey : cellYF st d = (if d * st.dir.y * syF st d < 0 then st.pos.y - 1
      else st.pos.y).tdiv (clamp1 st.dir.x * clamp1 st.dir.z) := by
    unfold cellYF
    exact tdiv_tdiv _ (clamp1_pos _) (clamp1_pos _)
  have hez : cellZF st d = (if d * st.dir.z * szF st d < 0 then st.pos.z - 1
      else st.pos.z).tdiv (clamp1 st.dir.x * clamp1 st.dir.y) := by
    unfold cellZF
    exact tdiv_tdiv _ (clamp1_pos _) (clamp1_pos _)
  unfold BitGrid.Canon
  rw [hex, hey, hez]
  exact ⟨hcx.1, hcx.2, hcy.1, hcy.2, hcz.1, hcz.2⟩

/-- The elementary step keeps the backing grid wellformed. -/
lemma once_wf {st : BitFlipper BitGrid} (d : Int) (hwf : st.grid.Wf) :
    (flip_and_advance_once bitGridOps st d).grid.Wf := by
  rw [step_eq]
  exact BitGrid.flip_wf hwf _ _ _

/-- States whose invariant holds and whose grid is wellformed; preserved by
the stepping functions. -/
def GoodState (st : BitFlipper BitGrid) : Prop := FlipperInv st ∧ st.grid.Wf

lemma good_once {st : BitFlipper BitGrid} {d : Int} (hd : d = 1 ∨ d = -1)
    (h : GoodState st) : GoodState (flip_and_advance_once bitGridOps st d) :=
  ⟨inv_preserved hd h.1, once_wf d h.2⟩

lemma good_stepN {d : Int} (hd : d = 1 ∨ d = -1) :
    ∀ (k : Nat) (st : BitFlipper BitGrid), GoodState st →
      GoodState (stepN bitGridOps d k st)
  | 0, _, h => h
  | k + 1, _, h => good_stepN hd k _ (good_once hd h)

lemma good_step (n : Int) {st : BitFlipper BitGrid} (h : GoodState st) :
    GoodState (step bitGridOps st n) := by
  unfold step
  rcases eq_or_ne n 0 with rfl | hn
  · exact h
  · exact good_stepN (sign_pm hn) n.natAbs st h

lemma good_fold : ∀ (ns : List Int) {st : BitFlipper BitGrid},
    GoodState st → GoodState (ns.foldl (step bitGridOps) st)
  | [], _, h => h
  | n :: ns, _, h => good_fold ns (good_step n h)

/-- `stepN` in tail form: `k+1` iterations are `k` iterations followed by an
elementary step. -/
lemma stepN_tail (ops : GridOps γ) (d : Int) :
    ∀ (k : Nat) (st : BitFlipper γ),
      stepN ops d (k + 1) st = flip_and_advance_once ops (stepN ops d k st) d
  | 0, _ => rfl
  | k + 1, st => stepN_tail ops d k (flip_and_advance_once ops st d)

/-- The stepping functions never change the direction vector. -/
lemma stepN_dir (ops : GridOps γ) (d : Int) :
    ∀ (k : Nat) (st : BitFlipper γ), (stepN ops d k st).dir = st.dir
  | 0, _ => rfl
  | k + 1, st => stepN_dir ops d k (flip_and_advance_once ops st d)

/-- C2: for every direction vector with a nonzero component on at least one
axis and every wellformed grid with positive extents (and the direction small
enough that the scaled products stay below `i32::MAX`, as the `i32`
arithmetic of the source requires), after any sequence of `step` calls each
elementary step (one iteration of the loop in `BitFlipper::step`, in either
direction) toggles exactly one cell of the backing grid and leaves every
other cell unchanged. -/
theorem c2_single_flip_per_tick (g : BitGrid) (dv : IVec3) (ns : List Int)
    (d : Int) (hwf : g.Wf)
    (hw : 1 ≤ g.width) (hh : 1 ≤ g.height) (hdp : 1 ≤ g.depth)
    (hbx : scaleX dv ≤ 2147483646) (hby : scaleY dv ≤ 2147483646)
    (hbz : scaleZ dv ≤ 2147483646)
    (hdir : dv.x ≠ 0 ∨ dv.y ≠ 0 ∨ dv.z ≠ 0)
    (hd : d = 1 ∨ d = -1) :
    ∃ cx cy cz : Int,
      (ns.foldl (step bitGridOps) (BitFlipper.new_with_grid g dv)).grid.Canon
        cx cy cz ∧
      (flip_and_advance_once bitGridOps
          (ns.foldl (step bitGridOps) (BitFlipper.new_with_grid g dv))
          d).grid.get cx cy cz =
        !((ns.foldl (step bitGridOps)
            (BitFlipper.new_with_grid g dv)).grid.get cx cy cz) ∧
      ∀ x y z : Int,
        (ns.foldl (step bitGridOps)
          (BitFlipper.new_with_grid g dv)).grid.Canon x y z →
        (x, y, z) ≠ (cx, cy, cz) →
        (flip_and_advance_once bitGridOps
            (ns.foldl (step bitGridOps) (BitFlipper.new_with_grid g dv))
            d).grid.get x y z =
          (ns.foldl (step bitGridOps)
            (BitFlipper.new_with_grid g dv)).grid.get x y z := by
  have hg : GoodState (ns.foldl (step bitGridOps)
      (BitFlipper.new_with_grid g dv)) :=
    good_fold ns ⟨inv_init dv hw hh hdp hbx hby hbz, hwf⟩
  refine ⟨cellXF (ns.foldl (step bitGridOps) (BitFlipper.new_with_grid g dv)) d,
    cellYF (ns.foldl (step bitGridOps) (BitFlipper.new_with_grid g dv)) d,
    cellZF (ns.foldl (step bitGridOps) (BitFlipper.new_with_grid g dv)) d,
    step_cells_range hd hg.1, ?_, ?_⟩
  · rw [step_eq]
    exact (BitGrid.flip_toggles_exactly hg.2 rfl (step_cells_range hd hg.1)).1
  · intro x y z hc hne
    rw [step_eq]
    exact (BitGrid.flip_toggles_exactly hg.2 rfl
      (step_cells_range hd hg.1)).2 x y z hc hne

theorem c2_single_flip_per_tick_witness :
    ∃ cx cy cz : Int,
      (([3] : List Int).foldl (step bitGridOps)
        (BitFlipper.new_with_grid (BitGrid.new 2 2 1) ⟨1, 1, 0⟩)).grid.Canon
        cx cy cz ∧
      (flip_and_advance_once bitGridOps
          (([3] : List Int).foldl (step bitGridOps)
            (BitFlipper.new_with_grid (BitGrid.new 2 2 1) ⟨1, 1, 0⟩))
          1).grid.get cx cy cz =
        !((([3] : List Int).foldl (step bitGridOps)
            (BitFlipper.new_with_grid (BitGrid.new 2 2 1)
              ⟨1, 1, 0⟩)).grid.get cx cy cz) ∧
      ∀ x y z : Int,
        (([3] : List Int).foldl (step bitGridOps)
          (BitFlipper.new_with_grid (BitGrid.new 2 2 1)
            ⟨1, 1, 0⟩)).grid.Canon x y z →
        (x, y, z) ≠ (cx, cy, cz) →
        (flip_and_advance_once bitGridOps
            (([3] : List Int).foldl (step bitGridOps)
              (BitFlipper.new_with_grid (BitGrid.new 2 2 1) ⟨1, 1, 0⟩))
            1).grid.get x y z =
          (([3] : List Int).foldl (step bitGridOps)
            (BitFlipper.new_with_grid (BitGrid.new 2 2 1)
              ⟨1, 1, 0⟩)).grid.get x y z :=
  c2_single_flip_per_tick (BitGrid.new 2 2 1) ⟨1, 1, 0⟩ [3] 1 (by decide)
    (by decide) (by decide) (by decide) (by decide) (by decide) (by decide)
    (Or.inl (by decide)) (Or.inl rfl)

/-- The backward elementary step undoes the forward one.  Starting from the
advanced position and grid, with any stored signs `t` that agree with the
forward step's effective signs whenever the advanced position is strictly
inside the band, the backward step flips the very cell the forward step
flipped (restoring the grid) and retreats to the original position; its
resulting signs again agree with the forward step's effective signs. -/
lemma once_undo {st : BitFlipper BitGrid} {d : Int} {t : IVec3}
    {bst : BitFlipper BitGrid}
    (hd : d = 1 ∨ d = -1) (hI : FlipperInv st)
    (hbst : bst = ⟨(flip_and_advance_once bitGridOps st d).pos, st.dir, t,
      (flip_and_advance_once bitGridOps st d).grid⟩)
    (hcx : 0 < (flip_and_advance_once bitGridOps st d).pos.x →
      (flip_and_advance_once bitGridOps st d).pos.x <
        st.grid.width * (clamp1 st.dir.y * clamp1 st.dir.z) →
      st.dir.x * t.x = st.dir.x * sxF st d)
    (hcy : 0 < (flip_and_advance_once bitGridOps st d).pos.y →
      (flip_and_advance_once bitGridOps st d).pos.y <
        st.grid.height * (clamp1 st.dir.x * clamp1 st.dir.z) →
      st.dir.y * t.y = st.dir.y * syF st d)
    (hcz : 0 < (flip_and_advance_once bitGridOps st d).pos.z →
      (flip_and_advance_once bitGridOps st d).pos.z <
        st.grid.depth * (clamp1 st.dir.x * clamp1 st.dir.y) →
      st.dir.z * t.z = st.dir.z * szF st d) :
    (flip_and_advance_once bitGridOps bst (-d)).pos = st.pos ∧
    (flip_and_advance_once bitGridOps bst (-d)).grid = st.grid ∧
    st.dir.x * (flip_and_advance_once bitGridOps bst (-d)).dir_sign.x =
      st.dir.x * sxF st d ∧
    st.dir.y * (flip_and_advance_once bitGridOps bst (-d)).dir_sign.y =
      st.dir.y * syF st d ∧
    st.dir.z * (flip_and_advance_once bitGridOps bst (-d)).dir_sign.z =
      st.dir.z * szF st d := by
  obtain ⟨hw, hh, hdp, hx0, hxB, hy0, hyB, hz0, hzB, hsx, hsy, hsz, hgx, hgy,
    hgz, hmult, hbx, hby, hbz⟩ := hI
  simp only [scaleX, scaleY, scaleZ] at hxB hyB hzB hmult hbx hby hbz
  have hsxF : sxF st d = reflect_sign st.pos.x
      (st.grid.width * (clamp1 st.dir.y * clamp1 st.dir.z))
      st.dir.x st.dir_sign.x d := by
    unfold sxF; rw [mul_assoc]
  have hsyF : syF st d = reflect_sign st.pos.y
      (st.grid.height * (clamp1 st.dir.x * clamp1 st.dir.z))
      st.dir.y st.dir_sign.y d := by
    unfold syF; rw [mul_assoc]
  have hszF : szF st d = reflect_sign st.pos.z
      (st.grid.depth * (clamp1 st.dir.x * clamp1 st.dir.y))
      st.dir.z st.dir_sign.z d := by
    unfold szF; rw [mul_assoc]
  have hnxFe : nxF st d = next_multiple_of_n_in_direction st.pos.x
      (clamp1 st.dir.y * clamp1 st.dir.z) (st.dir.x * sxF st d * d) := rfl
  have hnyFe : nyF st d = next_multiple_of_n_in_direction st.pos.y
      (clamp1 st.dir.x * clamp1 st.dir.z) (st.dir.y * syF st d * d) := rfl
  have hnzFe : nzF st d = next_multiple_of_n_in_direction st.pos.z
      (clamp1 st.dir.x * clamp1 st.dir.y) (st.dir.z * szF st d * d) := rfl
  have hnx : (1:Int) ≤ clamp1 st.dir.y * clamp1 st.dir.z :=
    mul_pos (clamp1_pos _) (clamp1_pos _)
  have hny : (1:Int) ≤ clamp1 st.dir.x * clamp1 st.dir.z :=
    mul_pos (clamp1_pos _) (clamp1_pos _)
  have hnz : (1:Int) ≤ clamp1 st.dir.x * clamp1 st.dir.y :=
    mul_pos (clamp1_pos _) (clamp1_pos _)
  obtain ⟨hσvx, hσ0Dx, hD0σx, hupx, hdnx, hd1x, hd2x, hd3x⟩ :=
    axis_forward_facts (E := st.grid.width) hnx hw hd hgx hx0 hxB hsx
  obtain ⟨hσvy, hσ0Dy, hD0σy, hupy, hdny, hd1y, hd2y, hd3y⟩ :=
    axis_forward_facts (E := st.grid.height) hny hh hd hgy hy0 hyB hsy
  obtain ⟨hσvz, hσ0Dz, hD0σz, hupz, hdnz, hd1z, hd2z, hd3z⟩ :=
    axis_forward_facts (E := st.grid.depth) hnz hdp hd hgz hz0 hzB hsz
  rw [← hsxF] at hσvx hσ0Dx hD0σx hupx hdnx hd1x hd2x hd3x
  rw [← hsyF] at hσvy hσ0Dy hD0σy hupy hdny hd1y hd2y hd3y
  rw [← hszF] at hσvz hσ0Dz hD0σz hupz hdnz hd1z hd2z hd3z
  rw [← hnxFe] at hupx hdnx hd1x hd2x hd3x
  rw [← hnyFe] at hupy hdny hd1y hd2y hd3y
  rw [← hnzFe] at hupz hdnz hd1z hd2z hd3z
  have hmFe : mF st d =
      min (min |nxF st d - st.pos.x| |nyF st d - st.pos.y|)
        |nzF st d - st.pos.z| :=
    move_amount_eq_min hd1x hd1y hd1z (le_trans hd2x hbx) (le_trans hd2y hby)
      (le_trans hd2z hbz)
  have hm1 : 1 ≤ mF st d := by rw [hmFe]; omega
  have hm2x : mF st d ≤ |nxF st d - st.pos.x| := by rw [hmFe]; omega
  have hm2y : mF st d ≤ |nyF st d - st.pos.y| := by rw [hmFe]; omega
  have hm2z : mF st d ≤ |nzF st d - st.pos.z| := by rw [hmFe]; omega
  -- components of the advanced state
  have hpxe : (flip_and_advance_once bitGridOps st d).pos.x =
      st.pos.x + mF st d * (d * st.dir.x.sign * sxF st d) := by
    show st.pos.x + mF st d * d * st.dir.x.sign * sxF st d = _
    ring
  have hpye : (flip_and_advance_once bitGridOps st d).pos.y =
      st.pos.y + mF st d * (d * st.dir.y.sign * syF st d) := by
    show st.pos.y + mF st d * d * st.dir.y.sign * syF st d = _
    ring
  have hpze : (flip_and_advance_once bitGridOps st d).pos.z =
      st.pos.z + mF st d * (d * st.dir.z.sign * szF st d) := by
    show st.pos.z + mF st d * d * st.dir.z.sign * szF st d = _
    ring
  rw [hpxe] at hcx
  rw [hpye] at hcy
  rw [hpze] at hcz
  have hbdir : bst.dir = st.dir := by rw [hbst]
  have hbsign : bst.dir_sign = t := by rw [hbst]
  have hbgrid : bst.grid = (flip_and_advance_once bitGridOps st d).grid := by
    rw [hbst]
  have hbpx : bst.pos.x = st.pos.x + mF st d * (d * st.dir.x.sign * sxF st d) := by
    rw [hbst]
    exact hpxe
  have hbpy : bst.pos.y = st.pos.y + mF st d * (d * st.dir.y.sign * syF st d) := by
    rw [hbst]
    exact hpye
  have hbpz : bst.pos.z = st.pos.z + mF st d * (d * st.dir.z.sign * szF st d) := by
    rw [hbst]
    exact hpze
  -- advanced position stays in the band
  have hadvx := axis_adv_bounds hnx hw hx0 hxB hσvx hupx hdnx hm1 hm2x
  have hadvy := axis_adv_bounds hny hh hy0 hyB hσvy hupy hdny hm1 hm2y
  have hadvz := axis_adv_bounds hnz hdp hz0 hzB hσvz hupz hdnz hm1 hm2z
  -- the backward reflection restores the effective signs
  have hsxBe : sxF bst (-d) = reflect_sign bst.pos.x
      (st.grid.width * (clamp1 st.dir.y * clamp1 st.dir.z))
      st.dir.x t.x (-d) := by
    unfold sxF
    rw [hbdir, hbsign, hbgrid]
    rw [show (flip_and_advance_once bitGridOps st d).grid.width =
      st.grid.width from rfl, mul_assoc]
  have hsyBe : syF bst (-d) = reflect_sign bst.pos.y
      (st.grid.height * (clamp1 st.dir.x * clamp1 st.dir.z))
      st.dir.y t.y (-d) := by
    unfold syF
    rw [hbdir, hbsign, hbgrid]
    rw [show (flip_and_advance_once bitGridOps st d).grid.height =
      st.grid.height from rfl, mul_assoc]
  have hszBe : szF bst (-d) = reflect_sign bst.pos.z
      (st.grid.depth * (clamp1 st.dir.x * clamp1 st.dir.y))
      st.dir.z t.z (-d) := by
    unfold szF
    rw [hbdir, hbsign, hbgrid]
    rw [show (flip_and_advance_once bitGridOps st d).grid.depth =
      st.grid.depth from rfl, mul_assoc]
  have hsxB : st.dir.x * sxF bst (-d) = st.dir.x * sxF st d := by
    by_cases hDx : st.dir.x = 0
    · rw [hDx]
      simp
    · rw [hsxBe, hbpx]
      exact axis_sign_undo hnx hw hd hDx (hgx hDx) hsxF hx0 hxB hm1
        hadvx.1 hadvx.2 hcx
  have hsyB : st.dir.y * syF bst (-d) = st.dir.y * syF st d := by
    by_cases hDy : st.dir.y = 0
    · rw [hDy]
      simp
    · rw [hsyBe, hbpy]
      exact axis_sign_undo hny hh hd hDy (hgy hDy) hsyF hy0 hyB hm1
        hadvy.1 hadvy.2 hcy
  have hszB : st.dir.z * szF bst (-d) = st.dir.z * szF st d := by
    by_cases hDz : st.dir.z = 0
    · rw [hDz]
      simp
    · rw [hszBe, hbpz]
      exact axis_sign_undo hnz hdp hd hDz (hgz hDz) hszF hz0 hzB hm1
        hadvz.1 hadvz.2 hcz
  have hnxBe : nxF bst (-d) = next_multiple_of_n_in_direction bst.pos.x
      (clamp1 st.dir.y * clamp1 st.dir.z) (st.dir.x * sxF bst (-d) * (-d)) := by
    unfold nxF
    rw [hbdir]
  have hnyBe : nyF bst (-d) = next_multiple_of_n_in_direction bst.pos.y
      (clamp1 st.dir.x * clamp1 st.dir.z) (st.dir.y * syF bst (-d) * (-d)) := by
    unfold nyF
    rw [hbdir]
  have hnzBe : nzF bst (-d) = next_multiple_of_n_in_direction bst.pos.z
      (clamp1 st.dir.x * clamp1 st.dir.y) (st.dir.z * szF bst (-d) * (-d)) := by
    unfold nzF
    rw [hbdir]
  -- backward per-axis distances
  have hBx : (st.dir.x = 0 ∧
      |nxF bst (-d) - bst.pos.x| = clamp1 st.dir.y * clamp1 st.dir.z ∧
      |nxF st d - st.pos.x| = clamp1 st.dir.y * clamp1 st.dir.z) ∨
      (st.dir.x ≠ 0 ∧
      |nxF bst (-d) - bst.pos.x| =
        mF st d + clamp1 st.dir.y * clamp1 st.dir.z - |nxF st d - st.pos.x|) := by
    by_cases hDx : st.dir.x = 0
    · refine Or.inl ⟨hDx, ?_, hd3x (by rw [hsx hDx]; exact dvd_zero _)⟩
      have hp0 : bst.pos.x = 0 := by
        rw [hbpx, hDx, hsx hDx]
        simp
      have harg0 : st.dir.x * sxF bst (-d) * (-d) = 0 := by
        rw [hDx]; ring
      rw [hnxBe, hp0, harg0]
      exact axis_dist_zero hnx le_rfl
    · refine Or.inr ⟨hDx, ?_⟩
      have hsxBeq : sxF bst (-d) = sxF st d := mul_left_cancel₀ hDx hsxB
      have hargb : st.dir.x * sxF bst (-d) * (-d) =
          -(|st.dir.x| * (d * st.dir.x.sign * sxF st d)) := by
        rw [hsxBeq, ← arg_eq_abs_mul_sigma]
        ring
      have habs1 : 1 ≤ |st.dir.x| := abs_pos.mpr hDx
      have hσpm : d * st.dir.x.sign * sxF st d = 1 ∨
          d * st.dir.x.sign * sxF st d = -1 := by
        rcases hσvx with hv | hv | hv
        · exact absurd (hσ0Dx hv) hDx
        · exact Or.inl hv
        · exact Or.inr hv
      have hupB : d * st.dir.x.sign * sxF st d = -1 →
          clamp1 st.dir.y * clamp1 st.dir.z ∣ nxF bst (-d) ∧
          st.pos.x + mF st d * (d * st.dir.x.sign * sxF st d) < nxF bst (-d) ∧
          nxF bst (-d) ≤ st.pos.x + mF st d * (d * st.dir.x.sign * sxF st d) +
            clamp1 st.dir.y * clamp1 st.dir.z := by
        intro h
        have h0 : 0 ≤ st.dir.x * sxF bst (-d) * (-d) := by
          rw [hargb, h]
          omega
        obtain ⟨ha, hb, hc⟩ := (axis_next_char hnx).1 h0
        rw [← hnxBe] at ha hb hc
        rw [hbpx] at hb hc
        exact ⟨ha, hb, hc⟩
      have hdnB : d * st.dir.x.sign * sxF st d = 1 →
          clamp1 st.dir.y * clamp1 st.dir.z ∣ nxF bst (-d) ∧
          st.pos.x + mF st d * (d * st.dir.x.sign * sxF st d) -
            clamp1 st.dir.y * clamp1 st.dir.z ≤ nxF bst (-d) ∧
          nxF bst (-d) < st.pos.x + mF st d * (d * st.dir.x.sign * sxF st d) := by
        intro h
        have h0 : st.dir.x * sxF bst (-d) * (-d) < 0 := by
          rw [hargb, h]
          omega
        obtain ⟨ha, hb, hc⟩ := (axis_next_char hnx).2 h0
        rw [← hnxBe] at ha hb hc
        rw [hbpx] at hb hc
        exact ⟨ha, hb, hc⟩
      have := axis_dist_undo hnx hx0 hσpm (fun h => (hupx h).2) hdnx hm1 hm2x
        hupB hdnB
      rw [← hbpx] at this
      exact this
  have hBy : (st.dir.y = 0 ∧
      |nyF bst (-d) - bst.pos.y| = clamp1 st.dir.x * clamp1 st.dir.z ∧
      |nyF st d - st.pos.y| = clamp1 st.dir.x * clamp1 st.dir.z) ∨
      (st.dir.y ≠ 0 ∧
      |nyF bst (-d) - bst.pos.y| =
        mF st d + clamp1 st.dir.x * clamp1 st.dir.z - |nyF st d - st.pos.y|) := by
    by_cases hDy : st.dir.y = 0
    · refine Or.inl ⟨hDy, ?_, hd3y (by rw [hsy hDy]; exact dvd_zero _)⟩
      have hp0 : bst.pos.y = 0 := by
        rw [hbpy, hDy, hsy hDy]
        simp
      have harg0 : st.dir.y * syF bst (-d) * (-d) = 0 := by
        rw [hDy]; ring
      rw [hnyBe, hp0, harg0]
      exact axis_dist_zero hny le_rfl
    · refine Or.inr ⟨hDy, ?_⟩
      have hsyBeq : syF bst (-d) = syF st d := mul_left_cancel₀ hDy hsyB
      have hargb : st.dir.y * syF bst (-d) * (-d) =
          -(|st.dir.y| * (d * st.dir.y.sign * syF st d)) := by
        rw [hsyBeq, ← arg_eq_abs_mul_sigma]
        ring
      have habs1 : 1 ≤ |st.dir.y| := abs_pos.mpr hDy
      have hσpm : d * st.dir.y.sign * syF st d = 1 ∨
          d * st.dir.y.sign * syF st d = -1 := by
        rcases hσvy with hv | hv | hv
        · exact absurd (hσ0Dy hv) hDy
        · exact Or.inl hv
        · exact Or.inr hv
      have hupB : d * st.dir.y.sign * syF st d = -1 →
          clamp1 st.dir.x * clamp1 st.dir.z ∣ nyF bst (-d) ∧
          st.pos.y + mF st d * (d * st.dir.y.sign * syF st d) < nyF bst (-d) ∧
          nyF bst (-d) ≤ st.pos.y + mF st d * (d * st.dir.y.sign * syF st d) +
            clamp1 st.dir.x * clamp1 st.dir.z := by
        intro h
        have h0 : 0 ≤ st.dir.y * syF bst (-d) * (-d) := by
          rw [hargb, h]
          omega
        obtain ⟨ha, hb, hc⟩ := (axis_next_char hny).1 h0
        rw [← hnyBe] at ha hb hc
        rw [hbpy] at hb hc
        exact ⟨ha, hb, hc⟩
      have hdnB : d * st.dir.y.sign * syF st d = 1 →
          clamp1 st.dir.x * clamp1 st.dir.z ∣ nyF bst (-d) ∧
          st.pos.y + mF st d * (d * st.dir.y.sign * syF st d) -
            clamp1 st.dir.x * clamp1 st.dir.z ≤ nyF bst (-d) ∧
          nyF bst (-d) < st.pos.y + mF st d * (d * st.dir.y.sign * syF st d) := by
        intro h
        have h0 : st.dir.y * syF bst (-d) * (-d) < 0 := by
          rw [hargb, h]
          omega
        obtain ⟨ha, hb, hc⟩ := (axis_next_char hny).2 h0
        rw [← hnyBe] at ha hb hc
        rw [hbpy] at hb hc
        exact ⟨ha, hb, hc⟩
      have := axis_dist_undo hny hy0 hσpm (fun h => (hupy h).2) hdny hm1 hm2y
        hupB hdnB
      rw [← hbpy] at this
      exact this
  have hBz : (st.dir.z = 0 ∧
      |nzF bst (-d) - bst.pos.z| = clamp1 st.dir.x * clamp1 st.dir.y ∧
      |nzF st d - st.pos.z| = clamp1 st.dir.x * clamp1 st.dir.y) ∨
      (st.dir.z ≠ 0 ∧
      |nzF bst (-d) - bst.pos.z| =
        mF st d + clamp1 st.dir.x * clamp1 st.dir.y - |nzF st d - st.pos.z|) := by
    by_cases hDz : st.dir.z = 0
    · refine Or.inl ⟨hDz, ?_, hd3z (by rw [hsz hDz]; exact dvd_zero _)⟩
      have hp0 : bst.pos.z = 0 := by
        rw [hbpz, hDz, hsz hDz]
        simp
      have harg0 : st.dir.z * szF bst (-d) * (-d) = 0 := by
        rw [hDz]; ring
      rw [hnzBe, hp0, harg0]
      exact axis_dist_zero hnz le_rfl
    · refine Or.inr ⟨hDz, ?_⟩
      have hszBeq : szF bst (-d) = szF st d := mul_left_cancel₀ hDz hszB
      have hargb : st.dir.z * szF bst (-d) * (-d) =
          -(|st.dir.z| * (d * st.dir.z.sign * szF st d)) := by
        rw [hszBeq, ← arg_eq_abs_mul_sigma]
        ring
      have habs1 : 1 ≤ |st.dir.z| := abs_pos.mpr hDz
      have hσpm : d * st.dir.z.sign * szF st d = 1 ∨
          d * st.dir.z.sign * szF st d = -1 := by
        rcases hσvz with hv | hv | hv
        · exact absurd (hσ0Dz hv) hDz
        · exact Or.inl hv
        · exact Or.inr hv
      have hupB : d * st.dir.z.sign * szF st d = -1 →
          clamp1 st.dir.x * clamp1 st.dir.y ∣ nzF bst (-d) ∧
          st.pos.z + mF st d * (d * st.dir.z.sign * szF st d) < nzF bst (-d) ∧
          nzF bst (-d) ≤ st.pos.z + mF st d * (d * st.dir.z.sign * szF st d) +
            clamp1 st.dir.x * clamp1 st.dir.y := by
        intro h
        have h0 : 0 ≤ st.dir.z * szF bst (-d) * (-d) := by
          rw [hargb, h]
          omega
        obtain ⟨ha, hb, hc⟩ := (axis_next_char hnz).1 h0
        rw [← hnzBe] at ha hb hc
        rw [hbpz] at hb hc
        exact ⟨ha, hb, hc⟩
      have hdnB : d * st.dir.z.sign * szF st d = 1 →
          clamp1 st.dir.x * clamp1 st.dir.y ∣ nzF bst (-d) ∧
          st.pos.z + mF st d * (d * st.dir.z.sign * szF st d) -
            clamp1 st.dir.x * clamp1 st.dir.y ≤ nzF bst (-d) ∧
          nzF bst (-d) < st.pos.z + mF st d * (d * st.dir.z.sign * szF st d) := by
        intro h
        have h0 : st.dir.z * szF bst (-d) * (-d) < 0 := by
          rw [hargb, h]
          omega
        obtain ⟨ha, hb, hc⟩ := (axis_next_char hnz).2 h0
        rw [← hnzBe] at ha hb hc
        rw [hbpz] at hb hc
        exact ⟨ha, hb, hc⟩
      have := axis_dist_undo hnz hz0 hσpm (fun h => (hupz h).2) hdnz hm1 hm2z
        hupB hdnB
      rw [← hbpz] at this
      exact this
  -- the backward move amount equals the forward one
  have hb1x : 1 ≤ |nxF bst (-d) - bst.pos.x| ∧
      |nxF bst (-d) - bst.pos.x| ≤ 2147483646 := by
    rcases hBx with ⟨h0, h1, h2⟩ | ⟨h0, h1⟩ <;> omega
  have hb1y : 1 ≤ |nyF bst (-d) - bst.pos.y| ∧
      |nyF bst (-d) - bst.pos.y| ≤ 2147483646 := by
    rcases hBy with ⟨h0, h1, h2⟩ | ⟨h0, h1⟩ <;> omega
  have hb1z : 1 ≤ |nzF bst (-d) - bst.pos.z| ∧
      |nzF bst (-d) - bst.pos.z| ≤ 2147483646 := by
    rcases hBz with ⟨h0, h1, h2⟩ | ⟨h0, h1⟩ <;> omega
  have hmBe : mF bst (-d) =
      min (min |nxF bst (-d) - bst.pos.x| |nyF bst (-d) - bst.pos.y|)
        |nzF bst (-d) - bst.pos.z| :=
    move_amount_eq_min hb1x.1 hb1y.1 hb1z.1 hb1x.2 hb1y.2 hb1z.2
  have hsome : (st.dir.x ≠ 0 ∧
      |nxF st d - st.pos.x| = clamp1 st.dir.y * clamp1 st.dir.z) ∨
      (st.dir.y ≠ 0 ∧
      |nyF st d - st.pos.y| = clamp1 st.dir.x * clamp1 st.dir.z) ∨
      (st.dir.z ≠ 0 ∧
      |nzF st d - st.pos.z| = clamp1 st.dir.x * clamp1 st.dir.y) ∨
      (st.dir.x = 0 ∧ st.dir.y = 0 ∧ st.dir.z = 0) := by
    rcases hmult with ⟨h0, h1⟩ | ⟨h0, h1⟩ | ⟨h0, h1⟩ | ⟨h0, h1, h2⟩
    · exact Or.inl ⟨h0, hd3x h1⟩
    · exact Or.inr (Or.inl ⟨h0, hd3y h1⟩)
    · exact Or.inr (Or.inr (Or.inl ⟨h0, hd3z h1⟩))
    · exact Or.inr (Or.inr (Or.inr ⟨h0, h1, h2⟩))
  have hmB : mF bst (-d) = mF st d := by
    rw [hmBe]
    rcases hBx with ⟨e0, e1, e2⟩ | ⟨e0, e1⟩ <;>
      rcases hBy with ⟨f0, f1, f2⟩ | ⟨f0, f1⟩ <;>
      rcases hBz with ⟨g0, g1, g2⟩ | ⟨g0, g1⟩ <;>
      rcases hsome with ⟨hs0, hs1⟩ | ⟨hs0, hs1⟩ | ⟨hs0, hs1⟩ | ⟨hs0, hs1, hs2⟩ <;>
      omega
  -- the backward step flips the very cell the forward step flipped
  have hcXe : cellXF bst (-d) =
      (if (-d) * st.dir.x * sxF bst (-d) < 0 then bst.pos.x - 1
        else bst.pos.x).tdiv (clamp1 st.dir.y * clamp1 st.dir.z) := by
    unfold cellXF
    rw [hbdir]
    exact tdiv_tdiv _ (clamp1_pos _) (clamp1_pos _)
  have hcYe : cellYF bst (-d) =
      (if (-d) * st.dir.y * syF bst (-d) < 0 then bst.pos.y - 1
        else bst.pos.y).tdiv (clamp1 st.dir.x * clamp1 st.dir.z) := by
    unfold cellYF
    rw [hbdir]
    exact tdiv_tdiv _ (clamp1_pos _) (clamp1_pos _)
  have hcZe : cellZF bst (-d) =
      (if (-d) * st.dir.z * szF bst (-d) < 0 then bst.pos.z - 1
        else bst.pos.z).tdiv (clamp1 st.dir.x * clamp1 st.dir.y) := by
    unfold cellZF
    rw [hbdir]
    exact tdiv_tdiv _ (clamp1_pos _) (clamp1_pos _)
  have hcXf : cellXF st d =
      (if d * st.dir.x * sxF st d < 0 then st.pos.x - 1
        else st.pos.x).tdiv (clamp1 st.dir.y * clamp1 st.dir.z) := by
    unfold cellXF
    exact tdiv_tdiv _ (clamp1_pos _) (clamp1_pos _)
  have hcYf : cellYF st d =
      (if d * st.dir.y * syF st d < 0 then st.pos.y - 1
        else st.pos.y).tdiv (clamp1 st.dir.x * clamp1 st.dir.z) := by
    unfold cellYF
    exact tdiv_tdiv _ (clamp1_pos _) (clamp1_pos _)
  have hcZf : cellZF st d =
      (if d * st.dir.z * szF st d < 0 then st.pos.z - 1
        else st.pos.z).tdiv (clamp1 st.dir.x * clamp1 st.dir.y) := by
    unfold cellZF
    exact tdiv_tdiv _ (clamp1_pos _) (clamp1_pos _)
  have hcellx : cellXF bst (-d) = cellXF st d := by
    rw [hcXe, hcXf]
    by_cases hDx : st.dir.x = 0
    · have c1 : ¬((-d) * st.dir.x * sxF bst (-d) < 0) := by
        rw [hDx]
        simp
      have c2 : ¬(d * st.dir.x * sxF st d < 0) := by
        rw [hDx]
        simp
      have hp0 : bst.pos.x = st.pos.x := by
        rw [hbpx, hDx]
        simp
      rw [if_neg c1, if_neg c2, hp0]
    · have hsxBeq : sxF bst (-d) = sxF st d := mul_left_cancel₀ hDx hsxB
      have habs1 : 1 ≤ |st.dir.x| := abs_pos.mpr hDx
      have hσpm : d * st.dir.x.sign * sxF st d = 1 ∨
          d * st.dir.x.sign * sxF st d = -1 := by
        rcases hσvx with hv | hv | hv
        · exact absurd (hσ0Dx hv) hDx
        · exact Or.inl hv
        · exact Or.inr hv
      have hargb : (-d) * st.dir.x * sxF bst (-d) =
          -(|st.dir.x| * (d * st.dir.x.sign * sxF st d)) := by
        rw [hsxBeq, ← arg_eq_abs_mul_sigma]
        ring
      have hargf : d * st.dir.x * sxF st d =
          |st.dir.x| * (d * st.dir.x.sign * sxF st d) := by
        rw [← arg_eq_abs_mul_sigma]
        ring
      have hiffb : ((-d) * st.dir.x * sxF bst (-d) < 0) ↔
          (d * st.dir.x.sign * sxF st d = 1) := by
        rw [hargb]
        rcases hσpm with hv | hv <;> rw [hv] <;> constructor <;>
          intro h2 <;> omega
      have hifff : (d * st.dir.x * sxF st d < 0) ↔
          (d * st.dir.x.sign * sxF st d = -1) := by
        rw [hargf]
        rcases hσpm with hv | hv <;> rw [hv] <;> constructor <;>
          intro h2 <;> omega
      rw [if_congr hiffb rfl rfl, if_congr hifff rfl rfl, hbpx]
      exact axis_cell_undo hnx hx0 (Or.inr hσpm) (fun h => (hupx h).2) hdnx
        (fun h => hsx (hσ0Dx h)) hm1 hm2x
  have hcelly : cellYF bst (-d) = cellYF st d := by
    rw [hcYe, hcYf]
    by_cases hDy : st.dir.y = 0
    · have c1 : ¬((-d) * st.dir.y * syF bst (-d) < 0) := by
        rw [hDy]
        simp
      have c2 : ¬(d * st.dir.y * syF st d < 0) := by
        rw [hDy]
        simp
      have hp0 : bst.pos.y = st.pos.y := by
        rw [hbpy, hDy]
        simp
      rw [if_neg c1, if_neg c2, hp0]
    · have hsyBeq : syF bst (-d) = syF st d := mul_left_cancel₀ hDy hsyB
      have habs1 : 1 ≤ |st.dir.y| := abs_pos.mpr hDy
      have hσpm : d * st.dir.y.sign * syF st d = 1 ∨
          d * st.dir.y.sign * syF st d = -1 := by
        rcases hσvy with hv | hv | hv
        · exact absurd (hσ0Dy hv) hDy
        · exact Or.inl hv
        · exact Or.inr hv
      have hargb : (-d) * st.dir.y * syF bst (-d) =
          -(|st.dir.y| * (d * st.dir.y.sign * syF st d)) := by
        rw [hsyBeq, ← arg_eq_abs_mul_sigma]
        ring
      have hargf : d * st.dir.y * syF st d =
          |st.dir.y| * (d * st.dir.y.sign * syF st d) := by
        rw [← arg_eq_abs_mul_sigma]
        ring
      have hiffb : ((-d) * st.dir.y * syF bst (-d) < 0) ↔
          (d * st.dir.y.sign * syF st d = 1) := by
        rw [hargb]
        rcases hσpm with hv | hv <;> rw [hv] <;> constructor <;>
          intro h2 <;> omega
      have hifff : (d * st.dir.y * syF st d < 0) ↔
          (d * st.dir.y.sign * syF st d = -1) := by
        rw [hargf]
        rcases hσpm with hv | hv <;> rw [hv] <;> constructor <;>
          intro h2 <;> omega
      rw [if_congr hiffb rfl rfl, if_congr hifff rfl rfl, hbpy]
      exact axis_cell_undo hny hy0 (Or.inr hσpm) (fun h => (hupy h).2) hdny
        (fun h => hsy (hσ0Dy h)) hm1 hm2y
  have hcellz : cellZF bst (-d) = cellZF st d := by
    rw [hcZe, hcZf]
    by_cases hDz : st.dir.z = 0
    · have c1 : ¬((-d) * st.dir.z * szF bst (-d) < 0) := by
        rw [hDz]
        simp
      have c2 : ¬(d * st.dir.z * szF st d < 0) := by
        rw [hDz]
        simp
      have hp0 : bst.pos.z = st.pos.z := by
        rw [hbpz, hDz]
        simp
      rw [if_neg c1, if_neg c2, hp0]
    · have hszBeq : szF bst (-d) = szF st d := mul_left_cancel₀ hDz hszB
      have habs1 : 1 ≤ |st.dir.z| := abs_pos.mpr hDz
      have hσpm : d * st.dir.z.sign * szF st d = 1 ∨
          d * st.dir.z.sign * szF st d = -1 := by
        rcases hσvz with hv | hv | hv
        · exact absurd (hσ0Dz hv) hDz
        · exact Or.inl hv
        · exact Or.inr hv
      have hargb : (-d) * st.dir.z * szF bst (-d) =
          -(|st.dir.z| * (d * st.dir.z.sign * szF st d)) := by
        rw [hszBeq, ← arg_eq_abs_mul_sigma]
        ring
      have hargf : d * st.dir.z * szF st d =
          |st.dir.z| * (d * st.dir.z.sign * szF st d) := by
        rw [← arg_eq_abs_mul_sigma]
        ring
      have hiffb : ((-d) * st.dir.z * szF bst (-d) < 0) ↔
          (d * st.dir.z.sign * szF st d = 1) := by
        rw [hargb]
        rcases hσpm with hv | hv <;> rw [hv] <;> constructor <;>
          intro h2 <;> omega
      have hifff : (d * st.dir.z * szF st d < 0) ↔
          (d * st.dir.z.sign * szF st d = -1) := by
        rw [hargf]
        rcases hσpm with hv | hv <;> rw [hv] <;> constructor <;>
          intro h2 <;> omega
      rw [if_congr hiffb rfl rfl, if_congr hifff rfl rfl, hbpz]
      exact axis_cell_undo hnz hz0 (Or.inr hσpm) (fun h => (hupz h).2) hdnz
        (fun h => hsz (hσ0Dz h)) hm1 hm2z
  -- the backward step retreats to the original position
  have hposx : (flip_and_advance_once bitGridOps bst (-d)).pos.x = st.pos.x := by
    have he : (flip_and_advance_once bitGridOps bst (-d)).pos.x =
        bst.pos.x + mF bst (-d) * (-d) * bst.dir.x.sign * sxF bst (-d) := by
      rw [step_eq]
    rw [he, hbdir]
    by_cases hDx : st.dir.x = 0
    · rw [hDx, hbpx, hDx]
      simp
    · have hsxBeq : sxF bst (-d) = sxF st d := mul_left_cancel₀ hDx hsxB
      rw [hmB, hsxBeq, hbpx]
      ring
  have hposy : (flip_and_advance_once bitGridOps bst (-d)).pos.y = st.pos.y := by
    have he : (flip_and_advance_once bitGridOps bst (-d)).pos.y =
        bst.pos.y + mF bst (-d) * (-d) * bst.dir.y.sign * syF bst (-d) := by
      rw [step_eq]
    rw [he, hbdir]
    by_cases hDy : st.dir.y = 0
    · rw [hDy, hbpy, hDy]
      simp
    · have hsyBeq : syF bst (-d) = syF st d := mul_left_cancel₀ hDy hsyB
      rw [hmB, hsyBeq, hbpy]
      ring
  have hposz : (flip_and_advance_once bitGridOps bst (-d)).pos.z = st.pos.z := by
    have he : (flip_and_advance_once bitGridOps bst (-d)).pos.z =
        bst.pos.z + mF bst (-d) * (-d) * bst.dir.z.sign * szF bst (-d) := by
      rw [step_eq]
    rw [he, hbdir]
    by_cases hDz : st.dir.z = 0
    · rw [hDz, hbpz, hDz]
      simp
    · have hszBeq : szF bst (-d) = szF st d := mul_left_cancel₀ hDz hszB
      rw [hmB, hszBeq, hbpz]
      ring
  have hpos : (flip_and_advance_once bitGridOps bst (-d)).pos = st.pos := by
    have he : (flip_and_advance_once bitGridOps bst (-d)).pos =
        ⟨(flip_and_advance_once bitGridOps bst (-d)).pos.x,
          (flip_and_advance_once bitGridOps bst (-d)).pos.y,
          (flip_and_advance_once bitGridOps bst (-d)).pos.z⟩ := rfl
    rw [he, hposx, hposy, hposz]
  have hgrid : (flip_and_advance_once bitGridOps bst (-d)).grid = st.grid := by
    have he : (flip_and_advance_once bitGridOps bst (-d)).grid =
        (bst.grid.flip (cellXF bst (-d)) (cellYF bst (-d))
          (cellZF bst (-d))).2 := by
      rw [step_eq]
    have he2 : (flip_and_advance_once bitGridOps st d).grid =
        (st.grid.flip (cellXF st d) (cellYF st d) (cellZF st d)).2 := by
      rw [step_eq]
    rw [he, hcellx, hcelly, hcellz, hbgrid, he2]
    exact BitGrid.flip_flip st.grid _ _ _
  have hsx2 : (flip_and_advance_once bitGridOps bst (-d)).dir_sign.x =
      sxF bst (-d) := by
    rw [step_eq]
  have hsy2 : (flip_and_advance_once bitGridOps bst (-d)).dir_sign.y =
      syF bst (-d) := by
    rw [step_eq]
  have hsz2 : (flip_and_advance_once bitGridOps bst (-d)).dir_sign.z =
      szF bst (-d) := by
    rw [step_eq]
  rw [hsx2, hsy2, hsz2]
  exact ⟨hpos, hgrid, hsxB, hsyB, hszB⟩

lemma inv_stepN {d : Int} (hd : d = 1 ∨ d = -1) :
    ∀ (k : Nat) (st : BitFlipper BitGrid), FlipperInv st →
      FlipperInv (stepN bitGridOps d k st)
  | 0, _, h => h
  | k + 1, _, h => inv_stepN hd k _ (inv_preserved hd h)

lemma stepN_gw (d : Int) : ∀ (k : Nat) (st : BitFlipper BitGrid),
    (stepN bitGridOps d k st).grid.width = st.grid.width
  | 0, _ => rfl
  | k + 1, st => (stepN_gw d k (flip_and_advance_once bitGridOps st d)).trans rfl

lemma stepN_gh (d : Int) : ∀ (k : Nat) (st : BitFlipper BitGrid),
    (stepN bitGridOps d k st).grid.height = st.grid.height
  | 0, _ => rfl
  | k + 1, st => (stepN_gh d k (flip_and_advance_once bitGridOps st d)).trans rfl

lemma stepN_gd (d : Int) : ∀ (k : Nat) (st : BitFlipper BitGrid),
    (stepN bitGridOps d k st).grid.depth = st.grid.depth
  | 0, _ => rfl
  | k + 1, st => (stepN_gd d k (flip_and_advance_once bitGridOps st d)).trans rfl

/-- Undoing a whole forward run: `k` backward elementary steps started from
the state reached by `k` forward elementary steps (with any stored signs that
agree with the reached state's signs in the interior) restore the original
position and grid. -/
lemma chain_undo {d : Int} (hd : d = 1 ∨ d = -1) :
    ∀ (k : Nat) (x : BitFlipper BitGrid), FlipperInv x →
    ∀ (t : IVec3),
    (0 < (stepN bitGridOps d k x).pos.x →
      (stepN bitGridOps d k x).pos.x <
        x.grid.width * (clamp1 x.dir.y * clamp1 x.dir.z) →
      x.dir.x * t.x = x.dir.x * (stepN bitGridOps d k x).dir_sign.x) →
    (0 < (stepN bitGridOps d k x).pos.y →
      (stepN bitGridOps d k x).pos.y <
        x.grid.height * (clamp1 x.dir.x * clamp1 x.dir.z) →
      x.dir.y * t.y = x.dir.y * (stepN bitGridOps d k x).dir_sign.y) →
    (0 < (stepN bitGridOps d k x).pos.z →
      (stepN bitGridOps d k x).pos.z <
        x.grid.depth * (clamp1 x.dir.x * clamp1 x.dir.y) →
      x.dir.z * t.z = x.dir.z * (stepN bitGridOps d k x).dir_sign.z) →
    (stepN bitGridOps (-d) k
      ⟨(stepN bitGridOps d k x).pos, x.dir, t,
        (stepN bitGridOps d k x).grid⟩).pos = x.pos ∧
    (stepN bitGridOps (-d) k
      ⟨(stepN bitGridOps d k x).pos, x.dir, t,
        (stepN bitGridOps d k x).grid⟩).grid = x.grid := by
  intro k
  induction k with
  | zero =>
    intro x hI t h1 h2 h3
    exact ⟨rfl, rfl⟩
  | succ k ih =>
    intro x hI t h1 h2 h3
    have hIz : FlipperInv (stepN bitGridOps d k x) := inv_stepN hd k x hI
    have htail : stepN bitGridOps d (k + 1) x =
        flip_and_advance_once bitGridOps (stepN bitGridOps d k x) d :=
      stepN_tail _ _ _ _
    have hdirz : (stepN bitGridOps d k x).dir = x.dir := stepN_dir _ _ _ _
    have hgw : (stepN bitGridOps d k x).grid.width = x.grid.width :=
      stepN_gw d k x
    have hgh : (stepN bitGridOps d k x).grid.height = x.grid.height :=
      stepN_gh d k x
    have hgd : (stepN bitGridOps d k x).grid.depth = x.grid.depth :=
      stepN_gd d k x
    have hbst : (⟨(stepN bitGridOps d (k + 1) x).pos, x.dir, t,
        (stepN bitGridOps d (k + 1) x).grid⟩ : BitFlipper BitGrid) =
        ⟨(flip_and_advance_once bitGridOps (stepN bitGridOps d k x) d).pos,
          (stepN bitGridOps d k x).dir, t,
          (flip_and_advance_once bitGridOps (stepN bitGridOps d k x) d).grid⟩ := by
      rw [htail, hdirz]
    rw [htail] at h1 h2 h3
    rw [← hgw, ← hdirz] at h1
    rw [← hgh, ← hdirz] at h2
    rw [← hgd, ← hdirz] at h3
    have hu := once_undo hd hIz hbst h1 h2 h3
    have heta : flip_and_advance_once bitGridOps
        (⟨(stepN bitGridOps d (k + 1) x).pos, x.dir, t,
          (stepN bitGridOps d (k + 1) x).grid⟩ : BitFlipper BitGrid) (-d) =
        ⟨(stepN bitGridOps d k x).pos, x.dir,
          (flip_and_advance_once bitGridOps
            (⟨(stepN bitGridOps d (k + 1) x).pos, x.dir, t,
              (stepN bitGridOps d (k + 1) x).grid⟩ : BitFlipper BitGrid)
            (-d)).dir_sign,
          (stepN bitGridOps d k x).grid⟩ := by
      have h0 : flip_and_advance_once bitGridOps
          (⟨(stepN bitGridOps d (k + 1) x).pos, x.dir, t,
            (stepN bitGridOps d (k + 1) x).grid⟩ : BitFlipper BitGrid) (-d) =
          ⟨(flip_and_advance_once bitGridOps
              (⟨(stepN bitGridOps d (k + 1) x).pos, x.dir, t,
                (stepN bitGridOps d (k + 1) x).grid⟩ : BitFlipper BitGrid)
              (-d)).pos,
            (flip_and_advance_once bitGridOps
              (⟨(stepN bitGridOps d (k + 1) x).pos, x.dir, t,
                (stepN bitGridOps d (k + 1) x).grid⟩ : BitFlipper BitGrid)
              (-d)).dir,
            (flip_and_advance_once bitGridOps
              (⟨(stepN bitGridOps d (k + 1) x).pos, x.dir, t,
                (stepN bitGridOps d (k + 1) x).grid⟩ : BitFlipper BitGrid)
              (-d)).dir_sign,
            (flip_and_advance_once bitGridOps
              (⟨(stepN bitGridOps d (k + 1) x).pos, x.dir, t,
                (stepN bitGridOps d (k + 1) x).grid⟩ : BitFlipper BitGrid)
              (-d)).grid⟩ := rfl
      rw [h0, hu.1, hu.2.1]
      rfl
    have hc1 : 0 < (stepN bitGridOps d k x).pos.x →
        (stepN bitGridOps d k x).pos.x <
          x.grid.width * (clamp1 x.dir.y * clamp1 x.dir.z) →
        x.dir.x * (flip_and_advance_once bitGridOps
          (⟨(stepN bitGridOps d (k + 1) x).pos, x.dir, t,
            (stepN bitGridOps d (k + 1) x).grid⟩ : BitFlipper BitGrid)
          (-d)).dir_sign.x =
        x.dir.x * (stepN bitGridOps d k x).dir_sign.x := by
      intro ha hb
      have hbnd : (stepN bitGridOps d k x).pos.x <
          (stepN bitGridOps d k x).grid.width *
            clamp1 (stepN bitGridOps d k x).dir.y *
            clamp1 (stepN bitGridOps d k x).dir.z := by
        rw [mul_assoc, hgw, hdirz]
        exact hb
      have hrefl : sxF (stepN bitGridOps d k x) d =
          (stepN bitGridOps d k x).dir_sign.x := by
        unfold sxF
        exact reflect_interior ha hbnd
      have hsg := hu.2.2.1
      rw [hdirz, hrefl] at hsg
      exact hsg
    have hc2 : 0 < (stepN bitGridOps d k x).pos.y →
        (stepN bitGridOps d k x).pos.y <
          x.grid.height * (clamp1 x.dir.x * clamp1 x.dir.z) →
        x.dir.y * (flip_and_advance_once bitGridOps
          (⟨(stepN bitGridOps d (k + 1) x).pos, x.dir, t,
            (stepN bitGridOps d (k + 1) x).grid⟩ : BitFlipper BitGrid)
          (-d)).dir_sign.y =
        x.dir.y * (stepN bitGridOps d k x).dir_sign.y := by
      intro ha hb
      have hbnd : (stepN bitGridOps d k x).pos.y <
          (stepN bitGridOps d k x).grid.height *
            clamp1 (stepN bitGridOps d k x).dir.x *
            clamp1 (stepN bitGridOps d k x).dir.z := by
        rw [mul_assoc, hgh, hdirz]
        exact hb
      have hrefl : syF (stepN bitGridOps d k x) d =
          (stepN bitGridOps d k x).dir_sign.y := by
        unfold syF
        exact reflect_interior ha hbnd
      have hsg := hu.2.2.2.1
      rw [hdirz, hrefl] at hsg
      exact hsg
    have hc3 : 0 < (stepN bitGridOps d k x).pos.z →
        (stepN bitGridOps d k x).pos.z <
          x.grid.depth * (clamp1 x.dir.x * clamp1 x.dir.y) →
        x.dir.z * (flip_and_advance_once bitGridOps
          (⟨(stepN bitGridOps d (k + 1) x).pos, x.dir, t,
            (stepN bitGridOps d (k + 1) x).grid⟩ : BitFlipper BitGrid)
          (-d)).dir_sign.z =
        x.dir.z * (stepN bitGridOps d k x).dir_sign.z := by
      intro ha hb
      have hbnd : (stepN bitGridOps d k x).pos.z <
          (stepN bitGridOps d k x).grid.depth *
            clamp1 (stepN bitGridOps d k x).dir.x *
            clamp1 (stepN bitGridOps d k x).dir.y := by
        rw [mul_assoc, hgd, hdirz]
        exact hb
      have hrefl : szF (stepN bitGridOps d k x) d =
          (stepN bitGridOps d k x).dir_sign.z := by
        unfold szF
        exact reflect_interior ha hbnd
      have hsg := hu.2.2.2.2
      rw [hdirz, hrefl] at hsg
      exact hsg
    show (stepN bitGridOps (-d) k (flip_and_advance_once bitGridOps
        (⟨(stepN bitGridOps d (k + 1) x).pos, x.dir, t,
          (stepN bitGridOps d (k + 1) x).grid⟩ : BitFlipper BitGrid)
        (-d))).pos = x.pos ∧
      (stepN bitGridOps (-d) k (flip_and_advance_once bitGridOps
        (⟨(stepN bitGridOps d (k + 1) x).pos, x.dir, t,
          (stepN bitGridOps d (k + 1) x).grid⟩ : BitFlipper BitGrid)
        (-d))).grid = x.grid
    rw [heta]
    exact ih x hI _ hc1 hc2 hc3

/-- C3: over a grid with positive extents (and a direction small enough that
the scaled products stay below `i32::MAX`, as the `i32` arithmetic of the
source requires), stepping a fresh flipper forward by `n >= 0` ticks and then
backward by `n` ticks returns `pos` to its original value and leaves the
backing grid in its original state. -/
theorem c3_step_reflection_roundtrip (g : BitGrid) (dv : IVec3) (n : Int)
    (hw : 1 ≤ g.width) (hh : 1 ≤ g.height) (hdp : 1 ≤ g.depth)
    (hbx : scaleX dv ≤ 2147483646) (hby : scaleY dv ≤ 2147483646)
    (hbz : scaleZ dv ≤ 2147483646) (hn : 0 ≤ n) :
    (step bitGridOps (step bitGridOps (BitFlipper.new_with_grid g dv) n)
      (-n)).pos = (BitFlipper.new_with_grid g dv).pos ∧
    (step bitGridOps (step bitGridOps (BitFlipper.new_with_grid g dv) n)
      (-n)).grid = g := by
  have hI0 : FlipperInv (BitFlipper.new_with_grid g dv) :=
    inv_init dv hw hh hdp hbx hby hbz
  rcases lt_or_eq_of_le hn with hpos | hzero
  · have hs1 : n.sign = 1 := Int.sign_eq_one_iff_pos.mpr hpos
    have hs2 : (-n).sign = -1 := by
      rw [Int.sign_neg, hs1]
    have hnat : (-n).natAbs = n.natAbs := Int.natAbs_neg n
    unfold step
    rw [hs1, hs2, hnat]
    have he : (⟨(stepN bitGridOps 1 n.natAbs
          (BitFlipper.new_with_grid g dv)).pos,
        (BitFlipper.new_with_grid g dv).dir,
        (stepN bitGridOps 1 n.natAbs
          (BitFlipper.new_with_grid g dv)).dir_sign,
        (stepN bitGridOps 1 n.natAbs
          (BitFlipper.new_with_grid g dv)).grid⟩ : BitFlipper BitGrid) =
        stepN bitGridOps 1 n.natAbs (BitFlipper.new_with_grid g dv) := by
      rw [← stepN_dir bitGridOps 1 n.natAbs (BitFlipper.new_with_grid g dv)]
    have hc := chain_undo (Or.inl rfl) n.natAbs (BitFlipper.new_with_grid g dv)
      hI0 (stepN bitGridOps 1 n.natAbs (BitFlipper.new_with_grid g dv)).dir_sign
      (fun _ _ => rfl) (fun _ _ => rfl) (fun _ _ => rfl)
    rw [he] at hc
    exact hc
  · rw [← hzero]
    exact ⟨rfl, rfl⟩

theorem c3_step_reflection_roundtrip_witness :
    (step bitGridOps (step bitGridOps
      (BitFlipper.new_with_grid (BitGrid.new 2 2 1) ⟨1, 1, 0⟩) 3) (-3)).pos =
      (BitFlipper.new_with_grid (BitGrid.new 2 2 1) ⟨1, 1, 0⟩).pos ∧
    (step bitGridOps (step bitGridOps
      (BitFlipper.new_with_grid (BitGrid.new 2 2 1) ⟨1, 1, 0⟩) 3) (-3)).grid =
      BitGrid.new 2 2 1 :=
  c3_step_reflection_roundtrip (BitGrid.new 2 2 1) ⟨1, 1, 0⟩ 3 (by decide)
    (by decide) (by decide) (by decide) (by decide) (by decide) (by decide)
